import Mathlib

/-
Verification development for the pyhctsa feature-extraction kernel
(`pyhctsa/Operations/Symbolic.py` and `pyhctsa/Operations/ExtremeEvents.py`).

Real-valued series are modelled as `List ℚ` (finite reals; no NaN/inf inputs).
Machine floats are modelled by exact rationals: the properties checked here are
exact identities or inequalities that the floating computation approximates.
Fallible code paths (Python `raise`, `ZeroDivisionError`) are modelled with
`Option`/`Except`.  The external `binarize` collaborator
(`pyhctsa/Utilities/utils.py`, not part of the sources) is modelled from the
spec where needed.
-/

/-! ## Discretizer: `CoarseGrain` (Symbolic.py, lines 650-749), method `quantile`

`np.quantile(y, p, method='hazen')` sorts the data and linearly interpolates at
the virtual (0-based) index `p*n - 1/2`, clipped into `[0, n-1]`.
-/

/-- The clipped Hazen virtual index `p*n - 1/2` used by `np.quantile(.., method='hazen')`. -/
def hazenPos (n : ℕ) (p : ℚ) : ℚ := max 0 (min ((n : ℚ) - 1) (p * n - 1/2))

/-- `np.quantile(y, p, method='hazen')`: sort, then interpolate at the clipped
virtual index.  When the fractional part is zero the second `getD` term is
multiplied by `0`, matching numpy's exact behaviour at integer indices. -/
def hazenQuantile (y : List ℚ) (p : ℚ) : ℚ :=
  let a := List.insertionSort (· ≤ ·) y
  let idx := hazenPos y.length p
  let j := (⌊idx⌋).toNat
  a.getD j 0 + (idx - j) * (a.getD (j+1) 0 - a.getD j 0)

/-- The threshold vector `th = np.quantile(y, np.linspace(0,1,k+1), method='hazen')`
with `th[0] -= 1` (so the minimum lands in group 1), as a function of the index. -/
def quantileTh (y : List ℚ) (k : ℕ) (i : ℕ) : ℚ :=
  if i = 0 then hazenQuantile y 0 - 1 else hazenQuantile y ((i : ℚ)/(k : ℚ))

/-- Element-wise view of the assignment loop
`for i in range(numGroups): yth[(y > th[i]) & (y <= th[i+1])] = i + 1`:
the final symbol of a sample is set by the last loop iteration whose condition
holds (0 if none holds). -/
def assignSymbol (y : List ℚ) (k : ℕ) (x : ℚ) : ℕ :=
  (List.range k).foldl
    (fun acc i => if quantileTh y k i < x ∧ x ≤ quantileTh y k (i+1) then i + 1 else acc) 0

/-- `CoarseGrain(y, 'quantile', k)` before the final consistency check. -/
def coarseGrainQuantile (y : List ℚ) (k : ℕ) : List ℕ :=
  y.map (assignSymbol y k)

/-- `CoarseGrain(y, 'quantile', k)` with the final check
`if np.any(yth == 0): raise ValueError(...)` modelled as `none`. -/
def coarseGrainQuantileChecked (y : List ℚ) (k : ℕ) : Option (List ℕ) :=
  let yth := coarseGrainQuantile y k
  if 0 ∈ yth then none else some yth

/-! ### Sorted-list infrastructure -/

lemma sortQ_sorted (y : List ℚ) : (List.insertionSort (· ≤ ·) y).Sorted (· ≤ ·) :=
  List.sorted_insertionSort (· ≤ ·) y

lemma sortQ_perm (y : List ℚ) : (List.insertionSort (· ≤ ·) y).Perm y :=
  List.perm_insertionSort (· ≤ ·) y

lemma sorted_getD_le {a : List ℚ} (h : a.Sorted (· ≤ ·)) {i j : ℕ} (hij : i ≤ j)
    (hj : j < a.length) : a.getD i 0 ≤ a.getD j 0 := by
  rcases eq_or_lt_of_le hij with rfl | hlt
  · exact le_refl _
  · rw [List.getD_eq_getElem _ _ (lt_trans hlt hj), List.getD_eq_getElem _ _ hj]
    exact List.pairwise_iff_getElem.1 h i j (lt_trans hlt hj) hj hlt

lemma getD_zero_le_of_mem {a : List ℚ} (h : a.Sorted (· ≤ ·)) {x : ℚ} (hx : x ∈ a) :
    a.getD 0 0 ≤ x := by
  obtain ⟨i, hi, rfl⟩ := List.mem_iff_getElem.1 hx
  rw [List.getD_eq_getElem _ _ (Nat.zero_lt_of_lt hi)]
  rcases Nat.eq_zero_or_pos i with rfl | hpos
  · exact le_refl _
  · exact List.pairwise_iff_getElem.1 h 0 i (Nat.zero_lt_of_lt hi) hi hpos

lemma le_getD_last_of_mem {a : List ℚ} (h : a.Sorted (· ≤ ·)) {x : ℚ} (hx : x ∈ a) :
    x ≤ a.getD (a.length - 1) 0 := by
  obtain ⟨i, hi, rfl⟩ := List.mem_iff_getElem.1 hx
  have hlast : a.length - 1 < a.length := Nat.sub_lt (Nat.zero_lt_of_lt hi) Nat.one_pos
  rw [List.getD_eq_getElem _ _ hlast]
  rcases eq_or_lt_of_le (Nat.le_sub_one_of_lt hi) with heq | hlt
  · simp [heq]
  · exact List.pairwise_iff_getElem.1 h i (a.length - 1) hi hlast hlt

/-! ### Hazen quantile: index frame and monotonicity -/

/-- Integer part of the clipped Hazen virtual index. -/
def jIdx (n : ℕ) (p : ℚ) : ℕ := (⌊hazenPos n p⌋).toNat

lemma hazenPos_nonneg (n : ℕ) (p : ℚ) : 0 ≤ hazenPos n p := le_max_left 0 _

lemma hazenPos_le_sub_one {n : ℕ} (hn : 1 ≤ n) (p : ℚ) : hazenPos n p ≤ (n : ℚ) - 1 := by
  have h1 : (1 : ℚ) ≤ (n : ℚ) := by exact_mod_cast hn
  exact max_le (by linarith) (min_le_left _ _)

lemma hazenPos_mono (n : ℕ) {p q : ℚ} (h : p ≤ q) : hazenPos n p ≤ hazenPos n q := by
  refine max_le_max (le_refl _) (min_le_min (le_refl _) ?_)
  have : p * n ≤ q * n := mul_le_mul_of_nonneg_right h (by positivity)
  linarith

lemma jIdx_cast (n : ℕ) (p : ℚ) : ((jIdx n p : ℕ) : ℚ) = (⌊hazenPos n p⌋ : ℚ) := by
  have h0 : (0 : ℤ) ≤ ⌊hazenPos n p⌋ := Int.floor_nonneg.2 (hazenPos_nonneg n p)
  rw [jIdx]
  exact_mod_cast congrArg (fun z : ℤ => (z : ℚ)) (Int.toNat_of_nonneg h0)

lemma jIdx_le_hazenPos (n : ℕ) (p : ℚ) : ((jIdx n p : ℕ) : ℚ) ≤ hazenPos n p := by
  rw [jIdx_cast]; exact Int.floor_le _

lemma hazenPos_lt_jIdx_add_one (n : ℕ) (p : ℚ) : hazenPos n p < (jIdx n p : ℚ) + 1 := by
  rw [jIdx_cast]; exact Int.lt_floor_add_one _

lemma jIdx_le {n : ℕ} (hn : 1 ≤ n) (p : ℚ) : jIdx n p ≤ n - 1 := by
  have h := hazenPos_le_sub_one hn p
  have hfl : (⌊hazenPos n p⌋ : ℤ) ≤ (n : ℤ) - 1 := by
    have : ⌊hazenPos n p⌋ ≤ ⌊((n : ℚ) - 1)⌋ := Int.floor_mono h
    rwa [show ((n : ℚ) - 1) = (((n : ℤ) - 1 : ℤ) : ℚ) by push_cast; ring, Int.floor_intCast] at this
  have := Int.toNat_le_toNat hfl
  rwa [show ((n : ℤ) - 1).toNat = n - 1 by omega] at this

lemma jIdx_lt {n : ℕ} (hn : 1 ≤ n) (p : ℚ) : jIdx n p < n :=
  lt_of_le_of_lt (jIdx_le hn p) (Nat.sub_lt hn Nat.one_pos)

lemma gFrac_eq_zero_of_top {n : ℕ} (hn : 1 ≤ n) {p : ℚ} (hj : jIdx n p = n - 1)
    (hg : (jIdx n p : ℚ) < hazenPos n p) : False := by
  have hle := hazenPos_le_sub_one hn p
  have hcast : ((jIdx n p : ℕ) : ℚ) = (n : ℚ) - 1 := by
    rw [hj]; push_cast [hn]; ring
  rw [hcast] at hg; linarith

lemma hazenQuantile_eq (y : List ℚ) (p : ℚ) :
    hazenQuantile y p =
      (List.insertionSort (· ≤ ·) y).getD (jIdx y.length p) 0 +
        (hazenPos y.length p - (jIdx y.length p : ℚ)) *
          ((List.insertionSort (· ≤ ·) y).getD (jIdx y.length p + 1) 0 -
            (List.insertionSort (· ≤ ·) y).getD (jIdx y.length p) 0) := by
  rfl

lemma sort_length (y : List ℚ) : (List.insertionSort (· ≤ ·) y).length = y.length :=
  (sortQ_perm y).length_eq

lemma hazenQuantile_ge_getD (y : List ℚ) (p : ℚ) (hn : 1 ≤ y.length) :
    (List.insertionSort (· ≤ ·) y).getD (jIdx y.length p) 0 ≤ hazenQuantile y p := by
  rw [hazenQuantile_eq]
  have hg0 : (0 : ℚ) ≤ hazenPos y.length p - (jIdx y.length p : ℚ) := by
    have := jIdx_le_hazenPos y.length p; linarith
  rcases eq_or_lt_of_le hg0 with heq | hpos
  · rw [← heq]; ring_nf; exact le_refl _
  · have hjne : jIdx y.length p ≠ y.length - 1 := by
      intro hj
      exact gFrac_eq_zero_of_top hn hj (by linarith)
    have hjlt : jIdx y.length p + 1 < y.length := by
      have := jIdx_le hn p; omega
    have hmono : (List.insertionSort (· ≤ ·) y).getD (jIdx y.length p) 0 ≤
        (List.insertionSort (· ≤ ·) y).getD (jIdx y.length p + 1) 0 :=
      sorted_getD_le (sortQ_sorted y) (Nat.le_succ _) (by rw [sort_length]; exact hjlt)
    nlinarith

lemma hazenQuantile_le_getD (y : List ℚ) (p : ℚ) (hn : 1 ≤ y.length)
    (hj1 : jIdx y.length p + 1 < y.length) :
    hazenQuantile y p ≤ (List.insertionSort (· ≤ ·) y).getD (jIdx y.length p + 1) 0 := by
  rw [hazenQuantile_eq]
  have hg0 : (0 : ℚ) ≤ hazenPos y.length p - (jIdx y.length p : ℚ) := by
    have := jIdx_le_hazenPos y.length p; linarith
  have hg1 : hazenPos y.length p - (jIdx y.length p : ℚ) < 1 := by
    have := hazenPos_lt_jIdx_add_one y.length p; linarith
  have hmono : (List.insertionSort (· ≤ ·) y).getD (jIdx y.length p) 0 ≤
      (List.insertionSort (· ≤ ·) y).getD (jIdx y.length p + 1) 0 :=
    sorted_getD_le (sortQ_sorted y) (Nat.le_succ _) (by rw [sort_length]; exact hj1)
  nlinarith

lemma hazenQuantile_lt_getD (y : List ℚ) (p : ℚ) (hn : 1 ≤ y.length)
    (hj1 : jIdx y.length p + 1 < y.length)
    (hstrict : (List.insertionSort (· ≤ ·) y).getD (jIdx y.length p) 0 <
      (List.insertionSort (· ≤ ·) y).getD (jIdx y.length p + 1) 0) :
    hazenQuantile y p < (List.insertionSort (· ≤ ·) y).getD (jIdx y.length p + 1) 0 := by
  rw [hazenQuantile_eq]
  have hg0 : (0 : ℚ) ≤ hazenPos y.length p - (jIdx y.length p : ℚ) := by
    have := jIdx_le_hazenPos y.length p; linarith
  have hg1 : hazenPos y.length p - (jIdx y.length p : ℚ) < 1 := by
    have := hazenPos_lt_jIdx_add_one y.length p; linarith
  nlinarith

lemma hazenQuantile_mono (y : List ℚ) (hn : 1 ≤ y.length) {p q : ℚ} (hpq : p ≤ q) :
    hazenQuantile y p ≤ hazenQuantile y q := by
  have hjle : jIdx y.length p ≤ jIdx y.length q :=
    Int.toNat_le_toNat (Int.floor_mono (hazenPos_mono y.length hpq))
  rcases eq_or_lt_of_le hjle with heq | hlt
  · rcases Nat.lt_or_ge (jIdx y.length p + 1) y.length with hj1 | hj1
    · rw [hazenQuantile_eq, hazenQuantile_eq, ← heq]
      have hidx : hazenPos y.length p ≤ hazenPos y.length q := hazenPos_mono y.length hpq
      have hmono : (List.insertionSort (· ≤ ·) y).getD (jIdx y.length p) 0 ≤
          (List.insertionSort (· ≤ ·) y).getD (jIdx y.length p + 1) 0 :=
        sorted_getD_le (sortQ_sorted y) (Nat.le_succ _) (by rw [sort_length]; exact hj1)
      nlinarith
    · -- top cell: both fractional parts are zero
      have hje : jIdx y.length p = y.length - 1 := by have := jIdx_le hn p; omega
      have hqe : jIdx y.length q = y.length - 1 := by rw [← heq]; exact hje
      have hgp : hazenPos y.length p - (jIdx y.length p : ℚ) = 0 := by
        rcases eq_or_lt_of_le (jIdx_le_hazenPos y.length p) with h | h
        · linarith
        · exact absurd (gFrac_eq_zero_of_top hn hje h) (fun hf => hf)
      have hgq : hazenPos y.length q - (jIdx y.length q : ℚ) = 0 := by
        rcases eq_or_lt_of_le (jIdx_le_hazenPos y.length q) with h | h
        · linarith
        · exact absurd (gFrac_eq_zero_of_top hn hqe h) (fun hf => hf)
      rw [hazenQuantile_eq, hazenQuantile_eq, hgp, hgq, ← heq]
  · have h1 : hazenQuantile y p ≤ (List.insertionSort (· ≤ ·) y).getD (jIdx y.length p + 1) 0 := by
      refine hazenQuantile_le_getD y p hn ?_
      have := jIdx_le hn q; omega
    have h2 : (List.insertionSort (· ≤ ·) y).getD (jIdx y.length p + 1) 0 ≤
        (List.insertionSort (· ≤ ·) y).getD (jIdx y.length q) 0 :=
      sorted_getD_le (sortQ_sorted y) hlt (by rw [sort_length]; exact jIdx_lt hn q)
    have h3 := hazenQuantile_ge_getD y q hn
    linarith

lemma hazenPos_zero {n : ℕ} (hn : 1 ≤ n) : hazenPos n 0 = 0 := by
  have h1 : (1 : ℚ) ≤ (n : ℚ) := by exact_mod_cast hn
  rw [hazenPos]
  have he : (0 : ℚ) * n - 1/2 = -(1/2) := by ring
  rw [he, min_eq_right (by linarith), max_eq_left (by linarith)]

lemma jIdx_zero {n : ℕ} (hn : 1 ≤ n) : jIdx n 0 = 0 := by
  rw [jIdx, hazenPos_zero hn]; simp

lemma hazenQuantile_zero (y : List ℚ) (hn : 1 ≤ y.length) :
    hazenQuantile y 0 = (List.insertionSort (· ≤ ·) y).getD 0 0 := by
  rw [hazenQuantile_eq, jIdx_zero hn, hazenPos_zero hn]; simp

lemma hazenPos_one {n : ℕ} (hn : 1 ≤ n) : hazenPos n 1 = (n : ℚ) - 1 := by
  have h1 : (1 : ℚ) ≤ (n : ℚ) := by exact_mod_cast hn
  rw [hazenPos]
  have he : (1 : ℚ) * n - 1/2 = (n : ℚ) - 1/2 := by ring
  rw [he, min_eq_left (by linarith), max_eq_right (by linarith)]

lemma jIdx_one {n : ℕ} (hn : 1 ≤ n) : jIdx n 1 = n - 1 := by
  rw [jIdx, hazenPos_one hn]
  rw [show ((n : ℚ) - 1) = (((n : ℤ) - 1 : ℤ) : ℚ) by push_cast; ring, Int.floor_intCast]
  omega

lemma hazenQuantile_one (y : List ℚ) (hn : 1 ≤ y.length) :
    hazenQuantile y 1 = (List.insertionSort (· ≤ ·) y).getD (y.length - 1) 0 := by
  rw [hazenQuantile_eq, jIdx_one hn, hazenPos_one hn]
  have hc : ((y.length - 1 : ℕ) : ℚ) = (y.length : ℚ) - 1 := by
    push_cast [hn]; ring
  rw [hc]; ring

lemma quantileTh_lt_of_mem {y : List ℚ} (hn : y ≠ []) {x : ℚ} (hx : x ∈ y) (k : ℕ) :
    quantileTh y k 0 < x := by
  have hlen : 1 ≤ y.length := List.length_pos.2 hn
  rw [quantileTh, if_pos rfl, hazenQuantile_zero y hlen]
  have hmem : x ∈ List.insertionSort (· ≤ ·) y := (sortQ_perm y).mem_iff.2 hx
  have := getD_zero_le_of_mem (sortQ_sorted y) hmem
  linarith

lemma le_quantileTh_top {y : List ℚ} (hn : y ≠ []) {k : ℕ} (hk : 1 ≤ k) {x : ℚ} (hx : x ∈ y) :
    x ≤ quantileTh y k k := by
  have hlen : 1 ≤ y.length := List.length_pos.2 hn
  rw [quantileTh, if_neg (by omega)]
  have hk0 : (k : ℚ) ≠ 0 := by
    have hpos : (0 : ℚ) < (k : ℚ) := by exact_mod_cast hk
    exact hpos.ne'
  have hkk : ((k : ℚ)/(k : ℚ)) = 1 := div_self hk0
  rw [hkk, hazenQuantile_one y hlen]
  have hmem : x ∈ List.insertionSort (· ≤ ·) y := (sortQ_perm y).mem_iff.2 hx
  have := le_getD_last_of_mem (sortQ_sorted y) hmem
  rwa [sort_length] at this

lemma quantileTh_mono {y : List ℚ} (hn : y ≠ []) {k : ℕ} (hk : 1 ≤ k) {i j : ℕ}
    (hij : i ≤ j) (hjk : j ≤ k) : quantileTh y k i ≤ quantileTh y k j := by
  have hlen : 1 ≤ y.length := List.length_pos.2 hn
  have hkpos : (0 : ℚ) < (k : ℚ) := by exact_mod_cast hk
  rcases Nat.eq_zero_or_pos i with rfl | hi
  · rcases Nat.eq_zero_or_pos j with rfl | hj
    · exact le_refl _
    · rw [quantileTh, quantileTh, if_pos rfl, if_neg (by omega)]
      have h0 : hazenQuantile y 0 ≤ hazenQuantile y ((j : ℚ)/(k : ℚ)) :=
        hazenQuantile_mono y hlen (by positivity)
      linarith
  · rw [quantileTh, quantileTh, if_neg (by omega), if_neg (by omega)]
    refine hazenQuantile_mono y hlen ?_
    exact (div_le_div_iff_of_pos_right hkpos).2 (by exact_mod_cast hij)

/-! ### The assignment fold: the final symbol is the last satisfied interval -/

lemma mem_of_getLast?_eq {α : Type} {l : List α} {a : α} (h : l.getLast? = some a) : a ∈ l := by
  obtain ⟨ys, rfl⟩ := List.getLast?_eq_some_iff.1 h
  simp

lemma foldl_lastSat (P : ℕ → Prop) [DecidablePred P] :
    ∀ (l : List ℕ) (init : ℕ),
      l.foldl (fun acc i => if P i then i + 1 else acc) init =
        (((l.filter (fun i => decide (P i))).getLast?).map (· + 1)).getD init := by
  intro l
  induction l with
  | nil => intro init; rfl
  | cons x xs ih =>
    intro init
    rw [List.foldl_cons, ih]
    by_cases hx : P x
    · rw [List.filter_cons_of_pos (by simpa using hx), if_pos hx]
      cases hfl : xs.filter (fun i => decide (P i)) with
      | nil => simp [hfl]
      | cons b bs =>
        rw [List.getLast?_cons_cons]
        obtain ⟨z, hz⟩ := Option.isSome_iff_exists.1 (List.getLast?_isSome.2 (by simp) :
          ((b :: bs).getLast?).isSome = true)
        simp [hz]
    · rw [List.filter_cons_of_neg (by simpa using hx), if_neg hx]

lemma assignSymbol_eq (y : List ℚ) (k : ℕ) (x : ℚ) :
    assignSymbol y k x =
      ((((List.range k).filter
          (fun i => decide (quantileTh y k i < x ∧ x ≤ quantileTh y k (i+1)))).getLast?).map
        (· + 1)).getD 0 :=
  foldl_lastSat _ _ _

lemma assignSymbol_spec {y : List ℚ} {k : ℕ} {x : ℚ} {s : ℕ}
    (hs : assignSymbol y k x = s) (hs0 : s ≠ 0) :
    ∃ i, i < k ∧ (quantileTh y k i < x ∧ x ≤ quantileTh y k (i+1)) ∧ s = i + 1 := by
  rw [assignSymbol_eq] at hs
  cases hlast : (((List.range k).filter
      (fun i => decide (quantileTh y k i < x ∧ x ≤ quantileTh y k (i+1)))).getLast?) with
  | none => rw [hlast] at hs; simp at hs; omega
  | some j =>
    rw [hlast] at hs
    have hj := mem_of_getLast?_eq hlast
    rw [List.mem_filter] at hj
    exact ⟨j, List.mem_range.1 hj.1, by simpa using hj.2, by simpa using hs.symm⟩

lemma exists_assign_interval {y : List ℚ} (hn : y ≠ []) {k : ℕ} (hk : 1 ≤ k) {x : ℚ}
    (hx : x ∈ y) :
    ∃ i, i < k ∧ quantileTh y k i < x ∧ x ≤ quantileTh y k (i+1) := by
  have hP0 : quantileTh y k 0 < x := quantileTh_lt_of_mem hn hx k
  have hPi : quantileTh y k (Nat.findGreatest (fun i => quantileTh y k i < x) (k-1)) < x :=
    @Nat.findGreatest_spec 0 (fun i => quantileTh y k i < x) _ (k-1) (Nat.zero_le _) hP0
  have hile : Nat.findGreatest (fun i => quantileTh y k i < x) (k-1) ≤ k - 1 :=
    Nat.findGreatest_le _
  refine ⟨Nat.findGreatest (fun i => quantileTh y k i < x) (k-1), by omega, hPi, ?_⟩
  rcases eq_or_lt_of_le hile with heq | hlt
  · rw [show Nat.findGreatest (fun i => quantileTh y k i < x) (k-1) + 1 = k by omega]
    exact le_quantileTh_top hn hk hx
  · have hnot : ¬ (quantileTh y k (Nat.findGreatest (fun i => quantileTh y k i < x) (k-1) + 1) < x) :=
      @Nat.findGreatest_is_greatest
        (Nat.findGreatest (fun i => quantileTh y k i < x) (k-1) + 1)
        (fun i => quantileTh y k i < x) _ (k-1) (by omega) (by omega)
    exact not_lt.1 hnot

lemma assignSymbol_ne_zero {y : List ℚ} (hn : y ≠ []) {k : ℕ} (hk : 1 ≤ k) {x : ℚ}
    (hx : x ∈ y) : assignSymbol y k x ≠ 0 := by
  obtain ⟨i, hik, hP1, hP2⟩ := exists_assign_interval hn hk hx
  intro h0
  rw [assignSymbol_eq] at h0
  cases hlast : (((List.range k).filter
      (fun i => decide (quantileTh y k i < x ∧ x ≤ quantileTh y k (i+1)))).getLast?) with
  | none =>
    rw [List.getLast?_eq_none_iff] at hlast
    have : i ∈ (List.range k).filter
        (fun i => decide (quantileTh y k i < x ∧ x ≤ quantileTh y k (i+1))) := by
      rw [List.mem_filter]
      refine ⟨List.mem_range.2 hik, ?_⟩
      simp only [decide_eq_true_eq]
      exact ⟨hP1, hP2⟩
    rw [hlast] at this
    simp at this
  | some j => rw [hlast] at h0; simp at h0

lemma assignSymbol_range {y : List ℚ} (hn : y ≠ []) {k : ℕ} (hk : 1 ≤ k) {x : ℚ}
    (hx : x ∈ y) : 1 ≤ assignSymbol y k x ∧ assignSymbol y k x ≤ k := by
  obtain ⟨i, hik, _, hsi⟩ :=
    assignSymbol_spec rfl (assignSymbol_ne_zero hn hk hx)
  omega

lemma assignSymbol_unique {y : List ℚ} (hn : y ≠ []) {k : ℕ} (hk : 1 ≤ k) {x : ℚ}
    (hx : x ∈ y) {i : ℕ} (hik : i < k) (h1 : quantileTh y k i < x)
    (h2 : x ≤ quantileTh y k (i+1)) : assignSymbol y k x = i + 1 := by
  obtain ⟨j, hjk, ⟨hj1, hj2⟩, hsj⟩ :=
    assignSymbol_spec rfl (assignSymbol_ne_zero hn hk hx)
  have hij : i = j := by
    by_contra hne
    rcases Nat.lt_or_ge i j with hlt | hge
    · have : quantileTh y k (i+1) ≤ quantileTh y k j :=
        quantileTh_mono hn hk (by omega) (by omega)
      linarith
    · have hlt : j < i := by omega
      have : quantileTh y k (j+1) ≤ quantileTh y k i :=
        quantileTh_mono hn hk (by omega) (by omega)
      linarith
  rw [hsj, hij]

lemma coarseGrainQuantile_mem_range {y : List ℚ} (hn : y ≠ []) {k : ℕ} (hk : 1 ≤ k) {s : ℕ}
    (hs : s ∈ coarseGrainQuantile y k) : 1 ≤ s ∧ s ≤ k := by
  obtain ⟨x, hxy, rfl⟩ := List.mem_map.1 hs
  exact assignSymbol_range hn hk hxy

lemma coarseGrainQuantile_length (y : List ℚ) (k : ℕ) :
    (coarseGrainQuantile y k).length = y.length :=
  List.length_map y _

/-- C4: on any nonempty finite series, `CoarseGrain(·, 'quantile', k)` assigns every
sample to exactly one group (the interval membership is unique), so the fatal
`'All values in the sequence were not assigned to a group'` error is never raised;
and structurally the error fires exactly when some element is left unassigned
(symbol 0). -/
theorem coarseGrain_quantile_never_raises (y : List ℚ) (k : ℕ) (hy : y ≠ []) (hk : 1 ≤ k) :
    coarseGrainQuantileChecked y k = some (coarseGrainQuantile y k) ∧
    (∀ x ∈ y, ∃ i, (i < k ∧ quantileTh y k i < x ∧ x ≤ quantileTh y k (i+1)) ∧
      (∀ i' < k, quantileTh y k i' < x ∧ x ≤ quantileTh y k (i'+1) → i' = i)) ∧
    (∀ z : List ℚ, ∀ m : ℕ,
      (coarseGrainQuantileChecked z m = none ↔ 0 ∈ coarseGrainQuantile z m)) := by
  refine ⟨?_, ?_, ?_⟩
  · rw [coarseGrainQuantileChecked]
    rw [if_neg]
    intro h0
    obtain ⟨x, hxy, hx0⟩ := List.mem_map.1 h0
    exact assignSymbol_ne_zero hy hk hxy hx0
  · intro x hxy
    obtain ⟨i, hik, h1, h2⟩ := exists_assign_interval hy hk hxy
    refine ⟨i, ⟨hik, h1, h2⟩, ?_⟩
    intro i' hik' ⟨h1', h2'⟩
    by_contra hne
    rcases Nat.lt_or_ge i' i with hlt | hge
    · have : quantileTh y k (i'+1) ≤ quantileTh y k i :=
        quantileTh_mono hy hk (by omega) (by omega)
      linarith
    · have hlt : i < i' := by omega
      have : quantileTh y k (i+1) ≤ quantileTh y k i' :=
        quantileTh_mono hy hk (by omega) (by omega)
      linarith
  · intro z m
    rw [coarseGrainQuantileChecked]
    by_cases h : 0 ∈ coarseGrainQuantile z m
    · simp [h]
    · simp [h]

/-- Witness for C4 at a concrete input. -/
theorem coarseGrain_quantile_never_raises_witness :
    coarseGrainQuantileChecked [5, 1, 3] 2 = some (coarseGrainQuantile [5, 1, 3] 2) ∧
    (∀ x ∈ ([5, 1, 3] : List ℚ), ∃ i, (i < 2 ∧ quantileTh [5, 1, 3] 2 i < x ∧
        x ≤ quantileTh [5, 1, 3] 2 (i+1)) ∧
      (∀ i' < 2, quantileTh [5, 1, 3] 2 i' < x ∧ x ≤ quantileTh [5, 1, 3] 2 (i'+1) → i' = i)) ∧
    (∀ z : List ℚ, ∀ m : ℕ,
      (coarseGrainQuantileChecked z m = none ↔ 0 ∈ coarseGrainQuantile z m)) :=
  coarseGrain_quantile_never_raises [5, 1, 3] 2 (by simp) (by omega)

/-! ### Symbol counts under `quantile` coarse-graining (equiprobability, C1) -/

lemma count_coarseGrain_eq_countP {y : List ℚ} (hy : y ≠ []) {k : ℕ} (hk : 1 ≤ k) {s : ℕ}
    (hs1 : 1 ≤ s) (hsk : s ≤ k) :
    (coarseGrainQuantile y k).count s =
      y.countP (fun x => decide (quantileTh y k (s-1) < x ∧ x ≤ quantileTh y k s)) := by
  rw [coarseGrainQuantile, List.count_eq_countP, List.countP_map]
  refine List.countP_congr ?_
  intro x hxy
  simp only [Function.comp_apply, beq_iff_eq, decide_eq_true_eq]
  constructor
  · intro heq
    obtain ⟨i, hik, ⟨h1, h2⟩, hsi⟩ := assignSymbol_spec heq (by omega)
    refine ⟨?_, ?_⟩
    · rw [show s - 1 = i by omega]; exact h1
    · rw [show s = i + 1 by omega]; exact h2
  · intro ⟨h1, h2⟩
    have := assignSymbol_unique hy hk hxy (show s - 1 < k by omega)
      h1 (by rwa [show s - 1 + 1 = s by omega])
    rwa [show s - 1 + 1 = s by omega] at this

lemma countP_interval_split (c d : ℚ) (hcd : c ≤ d) (l : List ℚ) :
    l.countP (fun x => decide (c < x ∧ x ≤ d)) + l.countP (fun x => decide (x ≤ c)) =
      l.countP (fun x => decide (x ≤ d)) := by
  induction l with
  | nil => rfl
  | cons a t ih =>
    rw [List.countP_cons, List.countP_cons, List.countP_cons]
    rcases le_or_lt a c with hac | hac
    · have h1 : decide (c < a ∧ a ≤ d) = false := by simp; intro h; linarith
      have h2 : decide (a ≤ c) = true := by simpa using hac
      have h3 : decide (a ≤ d) = true := by simp; linarith
      rw [h1, h2, h3]; simp at ih ⊢; omega
    · rcases le_or_lt a d with had | had
      · have h1 : decide (c < a ∧ a ≤ d) = true := by simp [hac, had]
        have h2 : decide (a ≤ c) = false := by simp; linarith
        have h3 : decide (a ≤ d) = true := by simpa using had
        rw [h1, h2, h3]; simp at ih ⊢; omega
      · have h1 : decide (c < a ∧ a ≤ d) = false := by simp; intro h; linarith
        have h2 : decide (a ≤ c) = false := by simp; linarith
        have h3 : decide (a ≤ d) = false := by simp; linarith
        rw [h1, h2, h3]; simp at ih ⊢; omega

lemma countP_le_of_head_gt {t : List ℚ} (hs : t.Sorted (· ≤ ·)) {c : ℚ}
    (hc : c < t.getD 0 0) (hne : t ≠ []) : t.countP (fun x => decide (x ≤ c)) = 0 := by
  rw [List.countP_eq_zero]
  intro x hx
  simp only [decide_eq_true_eq, not_le]
  exact lt_of_lt_of_le hc (getD_zero_le_of_mem hs hx)

lemma countP_le_boundary :
    ∀ (a : List ℚ), a.Sorted (· ≤ ·) → ∀ (c : ℚ) (j : ℕ), j < a.length →
      a.getD j 0 ≤ c → (j + 1 = a.length ∨ c < a.getD (j+1) 0) →
      a.countP (fun x => decide (x ≤ c)) = j + 1 := by
  intro a
  induction a with
  | nil => intro _ c j hj; simp at hj
  | cons x t ih =>
    intro hsort c j hj h1 h2
    rw [List.countP_cons]
    rcases Nat.eq_zero_or_pos j with rfl | hjpos
    · rw [List.getD_cons_zero] at h1
      have hxle : decide (x ≤ c) = true := by simpa using h1
      rw [hxle]
      have hct : t.countP (fun x => decide (x ≤ c)) = 0 := by
        rcases h2 with hlen | hgt
        · have : t = [] := by
            have := List.length_eq_zero.1 (by simpa using hlen.symm)
            exact this
          rw [this]; rfl
        · rw [List.getD_cons_succ] at hgt
          rcases List.eq_nil_or_concat t with rfl | ⟨t', z, rfl⟩
          · rfl
          · exact countP_le_of_head_gt (List.sorted_cons.1 hsort).2 hgt (by simp)
      rw [hct]
      simp
    · obtain ⟨j', rfl⟩ : ∃ j', j = j' + 1 := ⟨j - 1, by omega⟩
      rw [List.getD_cons_succ] at h1
      have hj' : j' < t.length := by simpa using Nat.lt_of_succ_lt_succ hj
      have hsorted_t : t.Sorted (· ≤ ·) := (List.sorted_cons.1 hsort).2
      have hxle : x ≤ c := by
        have hmem : t.getD j' 0 ∈ t := by
          rw [List.getD_eq_getElem _ _ hj']
          exact List.getElem_mem _
        exact le_trans ((List.sorted_cons.1 hsort).1 _ hmem) h1
      have h2' : j' + 1 = t.length ∨ c < t.getD (j'+1) 0 := by
        rcases h2 with hlen | hgt
        · left; simpa using Nat.succ_injective hlen
        · right; rwa [List.getD_cons_succ] at hgt
      rw [ih hsorted_t c j' hj' h1 h2', if_pos (by simpa using hxle)]

lemma sorted_getD_lt {a : List ℚ} (hs : a.Sorted (· ≤ ·)) (hnd : a.Nodup) {i j : ℕ}
    (hij : i < j) (hj : j < a.length) : a.getD i 0 < a.getD j 0 := by
  have hle := sorted_getD_le hs (le_of_lt hij) hj
  rcases eq_or_lt_of_le hle with heq | hlt
  · exfalso
    rw [List.getD_eq_getElem _ _ (lt_trans hij hj), List.getD_eq_getElem _ _ hj] at heq
    have := (hnd.getElem_inj_iff).1 heq
    omega
  · exact hlt

lemma countP_le_th {y : List ℚ} (hy : y ≠ []) (hnd : y.Nodup) {k : ℕ} (hk : 1 ≤ k) {s : ℕ}
    (hs1 : 1 ≤ s) (hsk : s ≤ k) :
    y.countP (fun x => decide (x ≤ quantileTh y k s)) =
      jIdx y.length ((s : ℚ)/(k : ℚ)) + 1 := by
  have hlen : 1 ≤ y.length := List.length_pos.2 hy
  have hperm := sortQ_perm y
  rw [← hperm.countP_eq]
  have hndA : (List.insertionSort (· ≤ ·) y).Nodup := (hperm.nodup_iff).2 hnd
  have hths : quantileTh y k s = hazenQuantile y ((s : ℚ)/(k : ℚ)) := by
    rw [quantileTh, if_neg (by omega)]
  refine countP_le_boundary _ (sortQ_sorted y) _ _ ?_ ?_ ?_
  · rw [sort_length]; exact jIdx_lt hlen _
  · rw [hths]; exact hazenQuantile_ge_getD y _ hlen
  · rcases Nat.lt_or_ge (jIdx y.length ((s : ℚ)/(k : ℚ)) + 1) y.length with hlt | hge
    · right
      rw [hths]
      refine hazenQuantile_lt_getD y _ hlen hlt ?_
      exact sorted_getD_lt (sortQ_sorted y) hndA (Nat.lt_succ_self _)
        (by rw [sort_length]; exact hlt)
    · left
      rw [sort_length]
      have := jIdx_lt hlen ((s : ℚ)/(k : ℚ))
      omega

lemma countP_le_th_zero {y : List ℚ} (hy : y ≠ []) (k : ℕ) :
    y.countP (fun x => decide (x ≤ quantileTh y k 0)) = 0 := by
  rw [List.countP_eq_zero]
  intro x hx
  simp only [decide_eq_true_eq, not_le]
  exact quantileTh_lt_of_mem hy hx k

lemma count_add_countP_eq {y : List ℚ} (hy : y ≠ []) {k : ℕ} (hk : 1 ≤ k) {s : ℕ}
    (hs1 : 1 ≤ s) (hsk : s ≤ k) :
    (coarseGrainQuantile y k).count s +
        y.countP (fun x => decide (x ≤ quantileTh y k (s-1))) =
      y.countP (fun x => decide (x ≤ quantileTh y k s)) := by
  rw [count_coarseGrain_eq_countP hy hk hs1 hsk]
  exact countP_interval_split _ _ (quantileTh_mono hy hk (by omega) hsk) y

/-! ### Floor arithmetic for the equiprobable-partition bound -/

lemma hazen_floor_first {n k : ℕ} (hn : 1 ≤ n) (hk : 1 ≤ k) :
    |((⌊hazenPos n ((1 : ℚ)/(k : ℚ))⌋ : ℚ) + 1) - (n : ℚ)/(k : ℚ)| ≤ 1 := by
  have hk0 : (0 : ℚ) < (k : ℚ) := by exact_mod_cast hk
  have hn1 : (1 : ℚ) ≤ (n : ℚ) := by exact_mod_cast hn
  have hr0 : (0 : ℚ) ≤ (n : ℚ)/(k : ℚ) := by positivity
  have hrn : (n : ℚ)/(k : ℚ) ≤ (n : ℚ) := by
    rw [div_le_iff hk0]
    nlinarith [mul_le_mul_of_nonneg_left (show (1 : ℚ) ≤ (k : ℚ) by exact_mod_cast hk)
      (show (0 : ℚ) ≤ (n : ℚ) by linarith)]
  have hu : hazenPos n ((1 : ℚ)/(k : ℚ)) =
      max 0 (min ((n : ℚ) - 1) ((n : ℚ)/(k : ℚ) - 1/2)) := by
    rw [hazenPos]
    rw [show ((1 : ℚ)/(k : ℚ)) * (n : ℚ) = (n : ℚ)/(k : ℚ) by ring]
  have hfl := Int.floor_le (hazenPos n ((1 : ℚ)/(k : ℚ)))
  have hfg := Int.lt_floor_add_one (hazenPos n ((1 : ℚ)/(k : ℚ)))
  rw [abs_le]
  constructor
  · rcases le_or_lt ((n : ℚ)/(k : ℚ) - 1/2) ((n : ℚ) - 1) with hA | hA
    · have hge : (n : ℚ)/(k : ℚ) - 1/2 ≤ hazenPos n ((1 : ℚ)/(k : ℚ)) := by
        rw [hu, min_eq_right hA]; exact le_max_right _ _
      linarith
    · have hge : (n : ℚ) - 1 ≤ hazenPos n ((1 : ℚ)/(k : ℚ)) := by
        rw [hu, min_eq_left (le_of_lt hA)]; exact le_max_right _ _
      linarith
  · have hle : hazenPos n ((1 : ℚ)/(k : ℚ)) ≤ (n : ℚ)/(k : ℚ) := by
      rw [hu]
      refine max_le hr0 (le_trans (min_le_right _ _) (by linarith))
    linarith

lemma hazen_floor_step {n k : ℕ} (hn : 1 ≤ n) (hk : 1 ≤ k) {s : ℕ} (hs : 2 ≤ s)
    (hsk : s ≤ k) :
    |((⌊hazenPos n ((s : ℚ)/(k : ℚ))⌋ : ℚ) - (⌊hazenPos n (((s : ℚ) - 1)/(k : ℚ))⌋ : ℚ)) -
      (n : ℚ)/(k : ℚ)| ≤ 1 := by
  have hk0 : (0 : ℚ) < (k : ℚ) := by exact_mod_cast hk
  have hn1 : (1 : ℚ) ≤ (n : ℚ) := by exact_mod_cast hn
  have hs2 : (2 : ℚ) ≤ (s : ℚ) := by exact_mod_cast hs
  have hskq : (s : ℚ) ≤ (k : ℚ) := by exact_mod_cast hsk
  have hr0 : (0 : ℚ) ≤ (n : ℚ)/(k : ℚ) := by positivity
  have hu : hazenPos n ((s : ℚ)/(k : ℚ)) =
      max 0 (min ((n : ℚ) - 1) ((s : ℚ) * ((n : ℚ)/(k : ℚ)) - 1/2)) := by
    rw [hazenPos]
    rw [show ((s : ℚ)/(k : ℚ)) * (n : ℚ) = (s : ℚ) * ((n : ℚ)/(k : ℚ)) by ring]
  have hv : hazenPos n (((s : ℚ) - 1)/(k : ℚ)) =
      max 0 (min ((n : ℚ) - 1) (((s : ℚ) - 1) * ((n : ℚ)/(k : ℚ)) - 1/2)) := by
    rw [hazenPos]
    rw [show (((s : ℚ) - 1)/(k : ℚ)) * (n : ℚ) = ((s : ℚ) - 1) * ((n : ℚ)/(k : ℚ)) by ring]
  have hmono : hazenPos n (((s : ℚ) - 1)/(k : ℚ)) ≤ hazenPos n ((s : ℚ)/(k : ℚ)) := by
    refine hazenPos_mono n ?_
    rw [div_le_div_iff_of_pos_right hk0]; linarith
  have hflu := Int.floor_le (hazenPos n ((s : ℚ)/(k : ℚ)))
  have hfgu := Int.lt_floor_add_one (hazenPos n ((s : ℚ)/(k : ℚ)))
  have hflv := Int.floor_le (hazenPos n (((s : ℚ) - 1)/(k : ℚ)))
  have hfgv := Int.lt_floor_add_one (hazenPos n (((s : ℚ) - 1)/(k : ℚ)))
  have hfloor_mono : (⌊hazenPos n (((s : ℚ) - 1)/(k : ℚ))⌋ : ℚ) ≤
      (⌊hazenPos n ((s : ℚ)/(k : ℚ))⌋ : ℚ) := by
    exact_mod_cast Int.floor_mono hmono
  have hlip : hazenPos n ((s : ℚ)/(k : ℚ)) ≤
      hazenPos n (((s : ℚ) - 1)/(k : ℚ)) + (n : ℚ)/(k : ℚ) := by
    rw [hu, hv]
    refine max_le ?_ ?_
    · have := le_max_left (0 : ℚ)
        (min ((n : ℚ) - 1) (((s : ℚ) - 1) * ((n : ℚ)/(k : ℚ)) - 1/2))
      linarith
    · have hmin : min ((n : ℚ) - 1) ((s : ℚ) * ((n : ℚ)/(k : ℚ)) - 1/2) ≤
          min ((n : ℚ) - 1) (((s : ℚ) - 1) * ((n : ℚ)/(k : ℚ)) - 1/2) + (n : ℚ)/(k : ℚ) := by
        rcases le_total ((n : ℚ) - 1) (((s : ℚ) - 1) * ((n : ℚ)/(k : ℚ)) - 1/2) with h | h
        · rw [min_eq_left h]
          have := min_le_left ((n : ℚ) - 1) ((s : ℚ) * ((n : ℚ)/(k : ℚ)) - 1/2)
          linarith
        · rw [min_eq_right h]
          have := min_le_right ((n : ℚ) - 1) ((s : ℚ) * ((n : ℚ)/(k : ℚ)) - 1/2)
          linarith
      have := le_max_right (0 : ℚ)
        (min ((n : ℚ) - 1) (((s : ℚ) - 1) * ((n : ℚ)/(k : ℚ)) - 1/2))
      linarith
  rw [abs_le]
  refine ⟨?_, by linarith⟩
  rcases lt_or_le (((s : ℚ) - 1) * ((n : ℚ)/(k : ℚ)) - 1/2) 0 with hvneg | hvpos
  · have hr1 : (1 : ℚ) * ((n : ℚ)/(k : ℚ)) ≤ ((s : ℚ) - 1) * ((n : ℚ)/(k : ℚ)) :=
      mul_le_mul_of_nonneg_right (by linarith) hr0
    linarith
  · rcases le_or_lt ((s : ℚ) * ((n : ℚ)/(k : ℚ)) - 1/2) ((n : ℚ) - 1) with hured | hured
    · have hvred : ((s : ℚ) - 1) * ((n : ℚ)/(k : ℚ)) - 1/2 ≤ (n : ℚ) - 1 := by
        nlinarith
      have hueq : hazenPos n ((s : ℚ)/(k : ℚ)) = (s : ℚ) * ((n : ℚ)/(k : ℚ)) - 1/2 := by
        rw [hu, min_eq_right hured, max_eq_right (by nlinarith)]
      have hveq : hazenPos n (((s : ℚ) - 1)/(k : ℚ)) =
          ((s : ℚ) - 1) * ((n : ℚ)/(k : ℚ)) - 1/2 := by
        rw [hv, min_eq_right hvred, max_eq_right hvpos]
      rw [hueq, hveq]
      rw [hueq] at hflu hfgu
      rw [hveq] at hflv hfgv
      linarith
    · have hueq : hazenPos n ((s : ℚ)/(k : ℚ)) = (n : ℚ) - 1 := by
        rw [hu, min_eq_left (le_of_lt hured), max_eq_right (by linarith)]
      have hufloor : (⌊hazenPos n ((s : ℚ)/(k : ℚ))⌋ : ℚ) = (n : ℚ) - 1 := by
        rw [hueq]
        rw [show ((n : ℚ) - 1) = (((n : ℤ) - 1 : ℤ) : ℚ) by push_cast; ring, Int.floor_intCast]
      have hvle : hazenPos n (((s : ℚ) - 1)/(k : ℚ)) ≤
          ((s : ℚ) - 1) * ((n : ℚ)/(k : ℚ)) - 1/2 := by
        rw [hv]
        exact max_le (by linarith) (min_le_right _ _)
      have hklast : ((s : ℚ) - 1) * ((n : ℚ)/(k : ℚ)) ≤ ((k : ℚ) - 1) * ((n : ℚ)/(k : ℚ)) :=
        mul_le_mul_of_nonneg_right (by linarith) hr0
      have hkid : ((k : ℚ) - 1) * ((n : ℚ)/(k : ℚ)) = (n : ℚ) - (n : ℚ)/(k : ℚ) := by
        field_simp
        ring
      rw [hufloor]
      linarith

/-- C1 (amended): for every nonempty series with pairwise-distinct values and every
alphabet size k ≥ 2, `CoarseGrain(y, 'quantile', k)` returns a symbol sequence of
length N whose symbols all lie in {1..k}, and each symbol's count is within ±1 of
N/k (equiprobable partition, Hazen convention).  The distinctness hypothesis is
forced: tied values break equiprobability (see the counterexample). -/
theorem coarseGrain_quantile_equiprobable (y : List ℚ) (k : ℕ) (hy : y ≠ [])
    (hnd : y.Nodup) (hk : 2 ≤ k) :
    (coarseGrainQuantile y k).length = y.length ∧
    (∀ s ∈ coarseGrainQuantile y k, 1 ≤ s ∧ s ≤ k) ∧
    (∀ s, 1 ≤ s → s ≤ k →
      |((coarseGrainQuantile y k).count s : ℚ) - (y.length : ℚ)/(k : ℚ)| ≤ 1) := by
  have hk1 : 1 ≤ k := by omega
  have hlen : 1 ≤ y.length := List.length_pos.2 hy
  refine ⟨coarseGrainQuantile_length y k,
    fun s hs => coarseGrainQuantile_mem_range hy hk1 hs, ?_⟩
  intro s hs1 hsk
  have hsum := count_add_countP_eq hy hk1 hs1 hsk
  rcases Nat.lt_or_ge s 2 with hs2 | hs2
  · have hseq : s = 1 := by omega
    subst hseq
    rw [show (1 : ℕ) - 1 = 0 from rfl, countP_le_th_zero hy k, Nat.add_zero,
      countP_le_th hy hnd hk1 (le_refl 1) hsk] at hsum
    rw [hsum]
    push_cast [jIdx_cast]
    exact hazen_floor_first hlen hk1
  · have hT1 := countP_le_th hy hnd hk1 (show 1 ≤ s - 1 by omega) (show s - 1 ≤ k by omega)
    have hTs := countP_le_th hy hnd hk1 hs1 hsk
    rw [hT1, hTs] at hsum
    have hq : ((coarseGrainQuantile y k).count s : ℚ) =
        (⌊hazenPos y.length ((s : ℚ)/(k : ℚ))⌋ : ℚ) -
          (⌊hazenPos y.length (((s : ℚ) - 1)/(k : ℚ))⌋ : ℚ) := by
      have hcast := congrArg (fun m : ℕ => (m : ℚ)) hsum
      simp only at hcast
      push_cast [jIdx_cast] at hcast
      rw [Nat.cast_sub hs1] at hcast
      linarith
    rw [hq]
    exact hazen_floor_step hlen hk1 hs2 hsk

/-- C1 counterexample: on the tied series [1,1,1] with k = 2, all samples get
symbol 1 (count 3), which is not within ±1 of N/k = 3/2: the claim fails for
series with tied values. -/
theorem coarseGrain_quantile_tied_counterexample :
    coarseGrainQuantile [1, 1, 1] 2 = [1, 1, 1] ∧
    ¬ (|((coarseGrainQuantile [1, 1, 1] 2).count 1 : ℚ) -
        (([1, 1, 1] : List ℚ).length : ℚ)/(2 : ℚ)| ≤ 1) := by
  with_unfolding_all decide

/-- Witness for the amended C1 at a concrete input. -/
theorem coarseGrain_quantile_equiprobable_witness :
    (coarseGrainQuantile [10, 3, 7, 1] 2).length = ([10, 3, 7, 1] : List ℚ).length ∧
    (∀ s ∈ coarseGrainQuantile [10, 3, 7, 1] 2, 1 ≤ s ∧ s ≤ 2) ∧
    (∀ s, 1 ≤ s → s ≤ 2 →
      |((coarseGrainQuantile [10, 3, 7, 1] 2).count s : ℚ) -
        (([10, 3, 7, 1] : List ℚ).length : ℚ)/(2 : ℚ)| ≤ 1) :=
  coarseGrain_quantile_equiprobable [10, 3, 7, 1] 2 (by with_unfolding_all decide)
    (by with_unfolding_all decide) (by decide)

/-! ## Transition-Matrix Estimator: `TransitionMatrix` (Symbolic.py, lines 541-648)

Claim scope: `howtocg='quantile'`, `tau=1` (no resampling).  The code builds
`ri = (yth == i+1)`, `ri_next = [False] ++ ri[:-1]`, `T[i,j] = sum(yth[ri_next] == j+1)`,
i.e. `T[i,j]` counts adjacent positions `t` with `yth[t-1] = i+1` and `yth[t] = j+1`,
with an explicit all-zero row when symbol `i+1` never occurs; then `T = T/(N-1)`.
-/

/-- Transition count `T[i][j]` before normalization, including the
`if sum(ri) == 0: T[i,:] = 0` branch of the code. -/
def transitionCount (yth : List ℕ) (i j : ℕ) : ℕ :=
  if yth.count (i+1) = 0 then 0
  else (yth.zip yth.tail).countP (fun ab => decide (ab.1 = i+1 ∧ ab.2 = j+1))

/-- Normalized entry `T[i][j]/(N-1)` of `TransitionMatrix(y, 'quantile', k, tau=1)`.
For a length-1 series numpy computes `0/0 = NaN`; the rational model yields 0 —
in either semantics the total sum is not 1 there. -/
def transitionMatrixEntry (y : List ℚ) (k : ℕ) (i j : ℕ) : ℚ :=
  (transitionCount (coarseGrainQuantile y k) i j : ℚ) / ((y.length : ℚ) - 1)

lemma transitionCount_eq_countP (yth : List ℕ) (i j : ℕ) :
    transitionCount yth i j =
      (yth.zip yth.tail).countP (fun ab => decide (ab.1 = i+1 ∧ ab.2 = j+1)) := by
  rw [transitionCount]
  by_cases h : yth.count (i+1) = 0
  · rw [if_pos h]
    symm
    rw [List.countP_eq_zero]
    intro ab hab
    simp only [decide_eq_true_eq, not_and]
    intro h1 _
    have := (List.of_mem_zip hab).1
    rw [h1] at this
    rw [List.count_eq_zero] at h
    exact absurd this h
  · rw [if_neg h]

lemma sum_ite_eq_succ {m k : ℕ} (h1 : 1 ≤ m) (hk : m ≤ k) :
    ∑ j ∈ Finset.range k, (if m = j+1 then (1 : ℕ) else 0) = 1 := by
  have hcong : ∀ j ∈ Finset.range k,
      (if m = j+1 then (1 : ℕ) else 0) = (if j = m-1 then (1 : ℕ) else 0) := by
    intro j _
    by_cases h : m = j + 1
    · rw [if_pos h, if_pos (by omega)]
    · rw [if_neg h, if_neg (by omega)]
  rw [Finset.sum_congr rfl hcong, Finset.sum_ite_eq' (Finset.range k) (m-1) (fun _ => 1),
    if_pos (Finset.mem_range.2 (by omega))]

lemma sum_ite_pair {a b k : ℕ} (ha1 : 1 ≤ a) (hak : a ≤ k) (hb1 : 1 ≤ b) (hbk : b ≤ k) :
    ∑ i ∈ Finset.range k, ∑ j ∈ Finset.range k,
      (if a = i+1 ∧ b = j+1 then (1 : ℕ) else 0) = 1 := by
  have hinner : ∀ i ∈ Finset.range k,
      (∑ j ∈ Finset.range k, (if a = i+1 ∧ b = j+1 then (1 : ℕ) else 0)) =
        (if a = i+1 then (1 : ℕ) else 0) := by
    intro i _
    by_cases hia : a = i+1
    · rw [if_pos hia]
      have : ∀ j ∈ Finset.range k,
          (if a = i+1 ∧ b = j+1 then (1 : ℕ) else 0) = (if b = j+1 then (1 : ℕ) else 0) := by
        intro j _
        by_cases hjb : b = j + 1
        · rw [if_pos ⟨hia, hjb⟩, if_pos hjb]
        · rw [if_neg (fun hc => hjb hc.2), if_neg hjb]
      rw [Finset.sum_congr rfl this, sum_ite_eq_succ hb1 hbk]
    · rw [if_neg hia]
      exact Finset.sum_eq_zero fun j _ => if_neg (fun hc => hia hc.1)
  rw [Finset.sum_congr rfl hinner, sum_ite_eq_succ ha1 hak]

lemma sum_countP_pairs {k : ℕ} :
    ∀ (l : List (ℕ × ℕ)),
      (∀ ab ∈ l, 1 ≤ ab.1 ∧ ab.1 ≤ k ∧ 1 ≤ ab.2 ∧ ab.2 ≤ k) →
      ∑ i ∈ Finset.range k, ∑ j ∈ Finset.range k,
        l.countP (fun ab => decide (ab.1 = i+1 ∧ ab.2 = j+1)) = l.length := by
  intro l
  induction l with
  | nil => intro _; simp
  | cons ab t ih =>
    intro hl
    obtain ⟨ha1, hak, hb1, hbk⟩ := hl ab (List.mem_cons_self _ _)
    have ht := fun x hx => hl x (List.mem_cons_of_mem _ hx)
    simp only [List.countP_cons, decide_eq_true_eq]
    rw [Finset.sum_congr rfl (fun i _ => Finset.sum_add_distrib), Finset.sum_add_distrib,
      ih ht, sum_ite_pair ha1 hak hb1 hbk, List.length_cons]

lemma zip_tail_length (yth : List ℕ) : (yth.zip yth.tail).length = yth.length - 1 := by
  rw [List.length_zip, List.length_tail]
  omega

/-- C2 (amended: series length ≥ 2): for `TransitionMatrix(y, 'quantile', k, tau=1)`
with k ≥ 2, all normalized entries are ≥ 0, their total sum is exactly 1 (each
adjacent symbol pair counted once, normalized by N-1), and rows of symbols that
never occur are all-zero.  For a length-1 series the sum is not 1 (numpy: NaN). -/
theorem transitionMatrix_entries (y : List ℚ) (k : ℕ) (hk : 2 ≤ k) (hlen : 2 ≤ y.length) :
    (∀ i j : ℕ, 0 ≤ transitionMatrixEntry y k i j) ∧
    (∑ i ∈ Finset.range k, ∑ j ∈ Finset.range k, transitionMatrixEntry y k i j) = 1 ∧
    (∀ i : ℕ, (coarseGrainQuantile y k).count (i+1) = 0 →
      ∀ j : ℕ, transitionMatrixEntry y k i j = 0) := by
  have hy : y ≠ [] := by
    intro h; rw [h] at hlen; simp at hlen
  have hlen1 : (1 : ℚ) ≤ (y.length : ℚ) - 1 := by
    have : (2 : ℚ) ≤ (y.length : ℚ) := by exact_mod_cast hlen
    linarith
  refine ⟨?_, ?_, ?_⟩
  · intro i j
    rw [transitionMatrixEntry]
    positivity
  · have hrange : ∀ ab ∈ ((coarseGrainQuantile y k).zip (coarseGrainQuantile y k).tail),
        1 ≤ ab.1 ∧ ab.1 ≤ k ∧ 1 ≤ ab.2 ∧ ab.2 ≤ k := by
      intro ab hab
      obtain ⟨h1, h2⟩ := List.of_mem_zip hab
      have hm1 := coarseGrainQuantile_mem_range hy (by omega) h1
      have hm2 := coarseGrainQuantile_mem_range hy (by omega) (List.mem_of_mem_tail h2)
      exact ⟨hm1.1, hm1.2, hm2.1, hm2.2⟩
    have hsum : ∑ i ∈ Finset.range k, ∑ j ∈ Finset.range k,
        transitionCount (coarseGrainQuantile y k) i j =
          (coarseGrainQuantile y k).length - 1 := by
      rw [Finset.sum_congr rfl (fun i _ => Finset.sum_congr rfl
        (fun j _ => transitionCount_eq_countP _ i j))]
      rw [sum_countP_pairs _ hrange, zip_tail_length]
    have hcast : ((coarseGrainQuantile y k).length - 1 : ℕ) = y.length - 1 := by
      rw [coarseGrainQuantile_length]
    calc ∑ i ∈ Finset.range k, ∑ j ∈ Finset.range k, transitionMatrixEntry y k i j
        = ((∑ i ∈ Finset.range k, ∑ j ∈ Finset.range k,
            transitionCount (coarseGrainQuantile y k) i j : ℕ) : ℚ) /
              ((y.length : ℚ) - 1) := by
          simp only [transitionMatrixEntry]
          push_cast
          rw [Finset.sum_div]
          refine Finset.sum_congr rfl fun i _ => ?_
          rw [Finset.sum_div]
      _ = 1 := by
          rw [hsum, hcast, Nat.cast_sub (by omega)]
          push_cast
          rw [div_self (by linarith)]
  · intro i hcount j
    rw [transitionMatrixEntry, transitionCount, if_pos hcount]
    simp

/-- C2 counterexample: for the length-1 series [0] with k = 2 the total entry sum
of the normalized transition matrix is 0 (numpy: NaN via 0/0), not 1. -/
theorem transitionMatrix_length_one_counterexample :
    ¬ ((∑ i ∈ Finset.range 2, ∑ j ∈ Finset.range 2,
        transitionMatrixEntry [0] 2 i j) = 1) := by
  simp only [Finset.sum_range_succ, Finset.sum_range_zero]
  with_unfolding_all decide

/-- Witness for the amended C2 at a concrete input. -/
theorem transitionMatrix_entries_witness :
    (∀ i j : ℕ, 0 ≤ transitionMatrixEntry [1, 2, 3, 4] 2 i j) ∧
    (∑ i ∈ Finset.range 2, ∑ j ∈ Finset.range 2,
      transitionMatrixEntry [1, 2, 3, 4] 2 i j) = 1 ∧
    (∀ i : ℕ, (coarseGrainQuantile [1, 2, 3, 4] 2).count (i+1) = 0 →
      ∀ j : ℕ, transitionMatrixEntry [1, 2, 3, 4] 2 i j = 0) :=
  transitionMatrix_entries [1, 2, 3, 4] 2 (by decide) (by decide)

/-! ## Extreme-Event Barrier Model: `MovingThreshold` (ExtremeEvents.py, lines 5-77)

The code takes `y = np.abs(y)` first; the recurrences below inline that as
`|y[i]|`.  Out-of-range `getD` defaults are never hit for indices `< N`.
-/

/-- Barrier trajectory: `q[0] = 1`; for `i ≥ 1`, if `|y[i]| > q[i-1]` (extreme
event) then `q[i] = (1+a)*|y[i]|`, else `q[i] = (1-b)*q[i-1]`. -/
def barrierQ (y : List ℚ) (a b : ℚ) : ℕ → ℚ
  | 0 => 1
  | i + 1 =>
      if |y.getD (i+1) 0| > barrierQ y a b i then (1 + a) * |y.getD (i+1) 0|
      else (1 - b) * barrierQ y a b i

/-- Kick sizes: `kicks[i] = q[i] - q[i-1]` at extreme events, 0 otherwise. -/
def kickAt (y : List ℚ) (a b : ℚ) : ℕ → ℚ
  | 0 => 0
  | i + 1 =>
      if |y.getD (i+1) 0| > barrierQ y a b i
      then (1 + a) * |y.getD (i+1) 0| - barrierQ y a b i else 0

/-- `MovingThreshold(y, a, b)`: the validation `b < 0 or b > 1 → ValueError` is
modelled as `none`; otherwise returns `(meanq, pkick)` with
`meanq = np.mean(q)` and `pkick = np.sum(kicks)/(N-1)`.  The other reported
statistics (median, IQR, max, min, std, kick-interval stats) are functions of
the same `q` and kick list and are not referenced by the claims. -/
def movingThresholdMeanqPkick (y : List ℚ) (a b : ℚ) : Option (ℚ × ℚ) :=
  if b < 0 ∨ b > 1 then none
  else
    some (((List.range y.length).map (barrierQ y a b)).sum / (y.length : ℚ),
      ((List.range y.length).map (kickAt y a b)).sum / ((y.length : ℚ) - 1))

lemma getD_zero_of_all_zero {y : List ℚ} (hy : ∀ x ∈ y, x = 0) (m : ℕ) :
    y.getD m 0 = 0 := by
  rcases Nat.lt_or_ge m y.length with hm | hm
  · rw [List.getD_eq_getElem _ _ hm]
    exact hy _ (List.getElem_mem hm)
  · exact List.getD_eq_default _ _ hm

lemma barrierQ_zero_series {y : List ℚ} (hy : ∀ x ∈ y, x = 0) (a b : ℚ) (hb1 : b ≤ 1) :
    ∀ i : ℕ, barrierQ y a b i = (1 - b)^i := by
  intro i
  induction i with
  | zero => rfl
  | succ i ih =>
    rw [barrierQ, getD_zero_of_all_zero hy, ih]
    rw [if_neg]
    · ring
    · simp only [abs_zero, gt_iff_lt, not_lt]
      exact pow_nonneg (by linarith) i

lemma kickAt_zero_series {y : List ℚ} (hy : ∀ x ∈ y, x = 0) (a b : ℚ) (hb1 : b ≤ 1) :
    ∀ i : ℕ, kickAt y a b i = 0 := by
  intro i
  cases i with
  | zero => rfl
  | succ i =>
    rw [kickAt, getD_zero_of_all_zero hy, barrierQ_zero_series hy a b hb1]
    rw [if_neg]
    simp only [abs_zero, gt_iff_lt, not_lt]
    exact pow_nonneg (by linarith) i

/-- C7: on a constant all-zero series (any length ≥ 2, any `a`, any valid
`b ∈ [0,1]`) `MovingThreshold` records no kicks, reports `pkick = 0`, and the
barrier decays geometrically, `q[i] = (1-b)^i`; concretely,
`MovingThreshold([0,0,0,0,0], a=1, b=1/10)` yields
`meanq = (1 + 9/10 + 81/100 + 729/1000 + 6561/10000)/5` and `pkick = 0`. -/
theorem movingThreshold_zero_series (y : List ℚ) (a b : ℚ) (hy : ∀ x ∈ y, x = 0)
    (hlen : 2 ≤ y.length) (hb0 : 0 ≤ b) (hb1 : b ≤ 1) :
    (∀ i : ℕ, kickAt y a b i = 0) ∧
    (∀ i : ℕ, barrierQ y a b i = (1 - b)^i) ∧
    movingThresholdMeanqPkick y a b =
      some (((List.range y.length).map (fun i => (1 - b)^i)).sum / (y.length : ℚ), 0) ∧
    movingThresholdMeanqPkick [0, 0, 0, 0, 0] 1 (1/10) =
      some ((1 + 9/10 + 81/100 + 729/1000 + 6561/10000)/5, 0) := by
  refine ⟨kickAt_zero_series hy a b hb1, barrierQ_zero_series hy a b hb1, ?_, ?_⟩
  · rw [movingThresholdMeanqPkick, if_neg (by push_neg; exact ⟨hb0, hb1⟩)]
    congr 1
    refine Prod.ext ?_ ?_
    · simp only
      congr 1
      refine congrArg List.sum (List.map_congr_left ?_)
      intro i _
      exact barrierQ_zero_series hy a b hb1 i
    · simp only
      have : (List.range y.length).map (kickAt y a b) =
          (List.range y.length).map (fun _ => (0 : ℚ)) :=
        List.map_congr_left fun i _ => kickAt_zero_series hy a b hb1 i
      rw [this]
      simp
  · have hz : ∀ x ∈ ([0, 0, 0, 0, 0] : List ℚ), x = 0 := by
      intro x hx
      simp only [List.mem_cons, List.not_mem_nil, or_false] at hx
      rcases hx with rfl | rfl | rfl | rfl | rfl <;> rfl
    rw [movingThresholdMeanqPkick, if_neg (by norm_num)]
    have hqmap : (List.range ([0, 0, 0, 0, 0] : List ℚ).length).map
        (barrierQ [0, 0, 0, 0, 0] 1 (1/10)) =
        (List.range 5).map (fun i => ((9 : ℚ)/10)^i) := by
      refine List.map_congr_left fun i _ => ?_
      rw [barrierQ_zero_series hz 1 (1/10) (by norm_num)]
      norm_num
    have hkmap : (List.range ([0, 0, 0, 0, 0] : List ℚ).length).map
        (kickAt [0, 0, 0, 0, 0] 1 (1/10)) =
        (List.range 5).map (fun _ => (0 : ℚ)) :=
      List.map_congr_left fun i _ => kickAt_zero_series hz 1 (1/10) (by norm_num) i
    rw [hqmap, hkmap]
    congr 1
    refine Prod.ext ?_ ?_
    · simp only [List.range_succ, List.range_zero, List.map_append, List.map_cons,
        List.map_nil, List.sum_append, List.sum_cons, List.sum_nil, List.nil_append]
      norm_num
    · simp

/-- Witness for C7 at a concrete input (discharging the hypotheses). -/
theorem movingThreshold_zero_series_witness :
    (∀ i : ℕ, kickAt [0, 0, 0] 2 (1/2) i = 0) ∧
    (∀ i : ℕ, barrierQ [0, 0, 0] 2 (1/2) i = (1 - 1/2)^i) ∧
    movingThresholdMeanqPkick [0, 0, 0] 2 (1/2) =
      some (((List.range ([0, 0, 0] : List ℚ).length).map (fun i => (1 - (1/2 : ℚ))^i)).sum /
        (([0, 0, 0] : List ℚ).length : ℚ), 0) ∧
    movingThresholdMeanqPkick [0, 0, 0, 0, 0] 1 (1/10) =
      some ((1 + 9/10 + 81/100 + 729/1000 + 6561/10000)/5, 0) :=
  movingThreshold_zero_series [0, 0, 0] 2 (1/2) (by with_unfolding_all decide)
    (by decide) (by with_unfolding_all decide) (by with_unfolding_all decide)

/-! ## Surprise Estimator: `Surprise` (Symbolic.py, lines 11-135)

`memory` is taken already resolved to an integer sample count `m` (the code's
fractional-`memory` branch `memory = int(np.round(memory*len(y)))` happens
upstream of everything modelled here).
-/

/-- Python-style indexing for the `yth[rs[0,i] - 1]` / `yth[rs[0,i] - 2]`
accesses: a negative index wraps from the end of the list. -/
def pyGet (l : List ℕ) (i : ℤ) : ℕ :=
  if 0 ≤ i then l.getD i.toNat 0 else l.getD (l.length - (-i).toNat) 0

/-- The memory window `yth[t-memory : t]` (faithful for the reachable indices
`t ≥ memory`, which is where the code samples). -/
def memWindow (yth : List ℕ) (m t : ℕ) : List ℕ :=
  (yth.drop (t - m)).take (t - (t - m))

/-- `'dist'` prior: `p = np.sum(yth[t-memory:t] == yth[t]) / memory`.  When
`memory = 0` the window is empty and numpy computes `0/0 = NaN` (with a
runtime warning, no exception); NaN is modelled as `none`. -/
def surpriseDistP (yth : List ℕ) (m t : ℕ) : Option ℚ :=
  if m = 0 then none
  else some (((memWindow yth m t).countP (fun v => decide (v = yth.getD t 0)) : ℚ) / (m : ℚ))

/-- Match positions for the `'T1'` prior:
`inmem = np.where(memory_data[:-1] == yth[t-1])[0]`. -/
def t1Inmem (yth : List ℕ) (m t : ℕ) : List ℕ :=
  (List.range (memWindow yth m t).dropLast.length).filter
    (fun p => decide ((memWindow yth m t).getD p 0 = pyGet yth ((t : ℤ) - 1)))

/-- `'T1'` prior: `p = 0` if `inmem` is empty, else
`np.mean(memory_data[inmem + 1] == yth[t])`. -/
def surpriseT1P (yth : List ℕ) (m t : ℕ) : ℚ :=
  if (t1Inmem yth m t).length = 0 then 0
  else ((t1Inmem yth m t).countP
      (fun p => decide ((memWindow yth m t).getD (p+1) 0 = yth.getD t 0)) : ℚ) /
    ((t1Inmem yth m t).length : ℚ)

/-- `'T2'` prior, first index set:
`inmem1 = np.where(memory_data[1:-1] == yth[t-1])[0]` — positions `p` into the
slice `memory_data[1:-1]`, so `memory_data[p]` is the symbol right before the
matched one. -/
def t2Inmem1 (yth : List ℕ) (m t : ℕ) : List ℕ :=
  (List.range ((memWindow yth m t).drop 1).dropLast.length).filter
    (fun p => decide (((memWindow yth m t).drop 1).dropLast.getD p 0 =
      pyGet yth ((t : ℤ) - 1)))

/-- `'T2'` prior, second index set:
`inmem2 = np.where(memory_data[inmem1] == yth[t-2])[0]` — META-indices `q` into
`inmem1` whose window predecessor matches `yth[t-2]`. -/
def t2Inmem2 (yth : List ℕ) (m t : ℕ) : List ℕ :=
  (List.range (t2Inmem1 yth m t).length).filter
    (fun q => decide ((memWindow yth m t).getD ((t2Inmem1 yth m t).getD q 0) 0 =
      pyGet yth ((t : ℤ) - 2)))

/-- `'T2'` prior exactly as implemented (lines 86-95): `p = 0` if `inmem2` is
empty, else `np.sum(memory_data[inmem2 + 2] == yth[t]) / len(inmem2)` — note the
numerator indexes the window at the META-indices `inmem2 + 2`, not at
`inmem1[inmem2] + 2`. -/
def surpriseT2P (yth : List ℕ) (m t : ℕ) : ℚ :=
  if (t2Inmem2 yth m t).length = 0 then 0
  else ((t2Inmem2 yth m t).countP
      (fun q => decide ((memWindow yth m t).getD (q+2) 0 = yth.getD t 0)) : ℚ) /
    ((t2Inmem2 yth m t).length : ℚ)

/-- Context-occurrence positions for the spec's description of `T2`. -/
def specT2Ctx (yth : List ℕ) (m t : ℕ) : List ℕ :=
  (List.range ((memWindow yth m t).length - 1)).filter
    (fun p => decide ((memWindow yth m t).getD p 0 = pyGet yth ((t : ℤ) - 2) ∧
      (memWindow yth m t).getD (p+1) 0 = pyGet yth ((t : ℤ) - 1)))

/-- Modelled from the spec: the true empirical second-order transition estimate
that §4.4 describes for the `T2` model — over positions `p` of the memory window
where the two-symbol context `(yth[t-2], yth[t-1])` occurs, the fraction whose
following symbol (at `p+2`, when inside the window) equals `yth[t]`; 0 when the
context never occurs. -/
def specT2P (yth : List ℕ) (m t : ℕ) : ℚ :=
  if (specT2Ctx yth m t).length = 0 then 0
  else ((specT2Ctx yth m t).countP
      (fun p => decide (p + 2 < (memWindow yth m t).length ∧
        (memWindow yth m t).getD (p+2) 0 = yth.getD t 0)) : ℚ) /
    ((specT2Ctx yth m t).length : ℚ)

/-- C3 (code bug): on the symbol sequence [3,1,2,1,2,2] with memory 5 at sampled
index t = 5, the context (yth[3], yth[4]) = (1,2) occurs in the window at
positions 1 and 3, never followed by yth[5] = 2, so the spec's second-order
estimate is 0; but the code stores probability 1 because it indexes the window
with meta-indices (`memory_data[inmem2 + 2]` instead of
`memory_data[inmem1[inmem2] + 2]`). -/
theorem surprise_T2_meta_index_bug :
    surpriseT2P [3, 1, 2, 1, 2, 2] 5 5 = 1 ∧
    specT2P [3, 1, 2, 1, 2, 2] 5 5 = 0 ∧
    surpriseT2P [3, 1, 2, 1, 2, 2] 5 5 ≠ specT2P [3, 1, 2, 1, 2, 2] 5 5 := by
  with_unfolding_all decide

/-- The sampled-index construction (lines 62-63):
`rs = np.random.permutation(int(N - memory)) + memory` followed by
`rs = np.sort(rs[0:min(numIters, len(rs) - 1)])`, as a function of the
permutation the generator produced. -/
def drawIndices (perm : List ℕ) (m numIters : ℕ) : List ℕ :=
  List.insertionSort (· ≤ ·) ((perm.map (· + m)).take (min numIters (perm.length - 1)))

/-- C8 (amended): whatever permutation of `range(N - m)` the generator yields,
the drawn index list is sorted, duplicate-free and contained in `[m, N)`, but
its length is `min(numIters, N - m - 1)` — one fewer than the claimed
`min(numIters, N - m)` when `numIters ≥ N - m`, because the code truncates with
`rs[0:min(numIters, len(rs) - 1)]`. -/
theorem surprise_sample_indices (N m numIters : ℕ) (perm : List ℕ)
    (hperm : perm.Perm (List.range (N - m))) (hmN : m < N) :
    (drawIndices perm m numIters).Sorted (· ≤ ·) ∧
    (drawIndices perm m numIters).Nodup ∧
    (∀ t ∈ drawIndices perm m numIters, m ≤ t ∧ t < N) ∧
    (drawIndices perm m numIters).length = min numIters (N - m - 1) := by
  have hplen : perm.length = N - m := by
    rw [hperm.length_eq, List.length_range]
  have hsortperm := List.perm_insertionSort (· ≤ (· : ℕ))
    ((perm.map (· + m)).take (min numIters (perm.length - 1)))
  refine ⟨List.sorted_insertionSort _ _, ?_, ?_, ?_⟩
  · refine hsortperm.nodup_iff.2 ?_
    refine List.Nodup.sublist (List.take_sublist _ _) ?_
    refine List.Nodup.map (fun a b hab => by omega) ?_
    exact hperm.nodup_iff.2 (List.nodup_range _)
  · intro t ht
    have ht' := hsortperm.mem_iff.1 ht
    have ht'' := List.mem_of_mem_take ht'
    obtain ⟨p, hp, rfl⟩ := List.mem_map.1 ht''
    have hpr : p ∈ List.range (N - m) := hperm.mem_iff.1 hp
    rw [List.mem_range] at hpr
    omega
  · rw [drawIndices, hsortperm.length_eq, List.length_take, List.length_map, hplen]
    omega

/-- C8 counterexample: with N = 6, m = 3 (feasible range {3,4,5}, size 3) and
numIters = 500, the code draws only 2 indices, not min(500, 3) = 3 — shown on
the permutation [0,1,2] of range(3) (the count is the same for every
permutation, by the amended theorem). -/
theorem surprise_sample_count_counterexample :
    ([0, 1, 2] : List ℕ).Perm (List.range 3) ∧
    (drawIndices [0, 1, 2] 3 500).length = 2 ∧
    min 500 (6 - 3) = 3 ∧
    (drawIndices [0, 1, 2] 3 500).length ≠ min 500 (6 - 3) := by
  decide

/-- Witness for the amended C8 at a concrete input. -/
theorem surprise_sample_indices_witness :
    (drawIndices [1, 0, 2] 2 1).Sorted (· ≤ ·) ∧
    (drawIndices [1, 0, 2] 2 1).Nodup ∧
    (∀ t ∈ drawIndices [1, 0, 2] 2 1, 2 ≤ t ∧ t < 5) ∧
    (drawIndices [1, 0, 2] 2 1).length = min 1 (5 - 2 - 1) :=
  surprise_sample_indices 5 2 1 [1, 0, 2] (by decide) (by decide)

/-- The three predictive models of `Surprise` (`whatPrior`). -/
inductive SurprisePrior
  | dist
  | T1
  | T2

/-- Dispatch on `whatPrior`; `none` models a NaN probability.  Only the
`'dist'` prior at `memory = 0` produces one: the T1/T2 branches guard their
empty-match case explicitly and store `p = 0` there. -/
def surprisePriorP : SurprisePrior → List ℕ → ℕ → ℕ → Option ℚ
  | .dist => surpriseDistP
  | .T1 => fun yth m t => some (surpriseT1P yth m t)
  | .T2 => fun yth m t => some (surpriseT2P yth m t)

/-- The generator state used by the call: `np.random.seed(randomSeed)` replaces
the process-global state whenever `randomSeed is not None`, so the pre-call
state `s0` is discarded in that case. -/
def surpriseState (s0 : ℕ) (randomSeed : Option ℕ) : ℕ :=
  match randomSeed with
  | some s => s
  | none => s0

/-- The sorted sampled indices of one `Surprise` call.  `rng state n` models
`np.random.permutation(n)` as a function of the generator state. -/
def surpriseRS (rng : ℕ → ℕ → List ℕ) (s0 : ℕ) (seed : Option ℕ)
    (m numGroups numIters : ℕ) (y : List ℚ) : List ℕ :=
  drawIndices (rng (surpriseState s0 seed) ((coarseGrainQuantile y numGroups).length - m))
    m numIters

/-- The probability store before zero-replacement: `store = np.zeros([numIters, 1])`
filled at positions `i < rs.size` with the prior's probability at sample `rs[i]`. -/
def surprisePreStore (rng : ℕ → ℕ → List ℕ) (s0 : ℕ) (seed : Option ℕ)
    (prior : SurprisePrior) (m numGroups numIters : ℕ) (y : List ℚ) : List (Option ℚ) :=
  (List.range numIters).map (fun i =>
    if i < (surpriseRS rng s0 seed m numGroups numIters y).length then
      surprisePriorP prior (coarseGrainQuantile y numGroups) m
        ((surpriseRS rng s0 seed m numGroups numIters y).getD i 0)
    else some 0)

/-- The store after `store[store == 0] = 1` (so that `log 0` never occurs); the
reported gains are `-log` of these values and every reported statistic of the
call is a deterministic function of this list.  A NaN entry (`none`) is left
untouched: `NaN == 0` is false in numpy, so the replacement mask skips it. -/
def surpriseStore (rng : ℕ → ℕ → List ℕ) (s0 : ℕ) (seed : Option ℕ)
    (prior : SurprisePrior) (m numGroups numIters : ℕ) (y : List ℚ) : List (Option ℚ) :=
  (surprisePreStore rng s0 seed prior m numGroups numIters y).map
    (fun p => if p = some 0 then some 1 else p)

lemma ratio_bounds {c n : ℕ} (hcn : c ≤ n) :
    0 ≤ (c : ℚ)/(n : ℚ) ∧ (c : ℚ)/(n : ℚ) ≤ 1 := by
  constructor
  · positivity
  · rcases Nat.eq_zero_or_pos n with rfl | hn
    · have : c = 0 := by omega
      simp [this]
    · rw [div_le_one (by exact_mod_cast hn)]
      exact_mod_cast hcn

lemma surpriseDistP_bounds (yth : List ℕ) (m t : ℕ) (hm : m ≠ 0) :
    ∃ q, surpriseDistP yth m t = some q ∧ 0 ≤ q ∧ q ≤ 1 := by
  rw [surpriseDistP, if_neg hm]
  refine ⟨_, rfl, ratio_bounds (le_trans (List.countP_le_length _) ?_)⟩
  rw [memWindow, List.length_take]
  omega

lemma surpriseT1P_bounds (yth : List ℕ) (m t : ℕ) :
    0 ≤ surpriseT1P yth m t ∧ surpriseT1P yth m t ≤ 1 := by
  rw [surpriseT1P]
  by_cases h : (t1Inmem yth m t).length = 0
  · rw [if_pos h]; norm_num
  · rw [if_neg h]
    exact ratio_bounds (List.countP_le_length _)

lemma surpriseT2P_bounds (yth : List ℕ) (m t : ℕ) :
    0 ≤ surpriseT2P yth m t ∧ surpriseT2P yth m t ≤ 1 := by
  rw [surpriseT2P]
  by_cases h : (t2Inmem2 yth m t).length = 0
  · rw [if_pos h]; norm_num
  · rw [if_neg h]
    exact ratio_bounds (List.countP_le_length _)

lemma surprisePriorP_bounds (prior : SurprisePrior) (yth : List ℕ) (m t : ℕ)
    (hm : m ≠ 0) :
    ∃ q, surprisePriorP prior yth m t = some q ∧ 0 ≤ q ∧ q ≤ 1 := by
  cases prior with
  | dist => exact surpriseDistP_bounds yth m t hm
  | T1 => exact ⟨_, rfl, surpriseT1P_bounds yth m t⟩
  | T2 => exact ⟨_, rfl, surpriseT2P_bounds yth m t⟩

/-- C10 (corrected): with a fixed (non-None) `randomSeed`, `Surprise` is
independent of the pre-call global generator state — two calls with identical
arguments produce the identical probability store, hence bit-identical reported
statistics (every output is a deterministic function of that store), with no
restriction on the arguments.  The second half of the claim needs one: when the
resolved memory `m` is at least 1, every stored probability is a rational
`q` with `0 < q ≤ 1` (after the `store[store == 0] = 1` replacement), so every
reported information gain `-log q` is a nonnegative real.  At `m = 0` —
reachable, e.g. the default `memory = 0.2` on a length-2 series rounds to 0 —
the `'dist'` prior computes `0/0 = NaN` and the gains are NaN, not nonnegative
numbers (see `surprise_memory_zero_gain_nan_counterexample`). -/
theorem surprise_fixed_seed_deterministic_and_gains_nonneg
    (rng : ℕ → ℕ → List ℕ) (s0 s0' seed : ℕ) (prior : SurprisePrior)
    (m numGroups numIters : ℕ) (y : List ℚ) :
    surpriseStore rng s0 (some seed) prior m numGroups numIters y =
      surpriseStore rng s0' (some seed) prior m numGroups numIters y ∧
    (1 ≤ m →
      (∀ p ∈ surpriseStore rng s0 (some seed) prior m numGroups numIters y,
        ∃ q, p = some q ∧ 0 < q ∧ q ≤ 1) ∧
      (∀ g ∈ (surpriseStore rng s0 (some seed) prior m numGroups numIters y).map
          (Option.map (fun q : ℚ => -Real.log (q : ℝ))),
        ∃ r, g = some r ∧ 0 ≤ r)) := by
  have hmem : 1 ≤ m →
      ∀ p ∈ surpriseStore rng s0 (some seed) prior m numGroups numIters y,
        ∃ q, p = some q ∧ 0 < q ∧ q ≤ 1 := by
    intro hm p hp
    rw [surpriseStore] at hp
    obtain ⟨p0, hp0, rfl⟩ := List.mem_map.1 hp
    have hb : ∃ q, p0 = some q ∧ 0 ≤ q ∧ q ≤ 1 := by
      rw [surprisePreStore] at hp0
      obtain ⟨i, _, rfl⟩ := List.mem_map.1 hp0
      by_cases h : i < (surpriseRS rng s0 (some seed) m numGroups numIters y).length
      · rw [if_pos h]
        exact surprisePriorP_bounds prior _ m _ (by omega)
      · rw [if_neg h]
        exact ⟨0, rfl, le_refl 0, by norm_num⟩
    obtain ⟨q, rfl, hq0, hq1⟩ := hb
    by_cases hz : q = 0
    · subst hz
      rw [if_pos rfl]
      exact ⟨1, rfl, by norm_num⟩
    · have hne : (some q : Option ℚ) ≠ some 0 := by simp [hz]
      rw [if_neg hne]
      exact ⟨q, rfl, lt_of_le_of_ne hq0 (Ne.symm hz), hq1⟩
  refine ⟨rfl, fun hm => ⟨hmem hm, ?_⟩⟩
  intro g hg
  obtain ⟨p, hp, rfl⟩ := List.mem_map.1 hg
  obtain ⟨q, rfl, hq0, hq1⟩ := hmem hm p hp
  refine ⟨-Real.log (q : ℝ), rfl, ?_⟩
  have h0 : (0 : ℝ) < (q : ℝ) := by exact_mod_cast hq0
  have h1 : (q : ℝ) ≤ 1 := by exact_mod_cast hq1
  have := Real.log_nonpos (le_of_lt h0) h1
  linarith

/-- C10 counterexample: at resolved memory `m = 0` (reachable: the default
`memory = 0.2` of a length-2 series rounds to 0, and `memory = 0` may be passed
directly) the `'dist'` prior computes `np.sum(...)/0 = 0/0`, numpy's NaN.  The
replacement `store[store == 0] = 1` leaves NaN alone (`NaN == 0` is false), so
the store keeps a NaN entry and the reported gain `-log NaN` is NaN — the
frozen "every reported information gain is ≥ 0" fails at this call. -/
theorem surprise_memory_zero_gain_nan_counterexample :
    surpriseStore (fun _ n => List.range n) 0 (some 0) SurprisePrior.dist 0 2 2 [1, 2] =
      [none, some 1] ∧
    ¬ ∀ g ∈ (surpriseStore (fun _ n => List.range n) 0 (some 0) SurprisePrior.dist 0 2 2
        [1, 2]).map (Option.map (fun q : ℚ => -Real.log (q : ℝ))),
      ∃ r, g = some r ∧ 0 ≤ r := by
  have h : surpriseStore (fun _ n => List.range n) 0 (some 0) SurprisePrior.dist 0 2 2 [1, 2] =
      [none, some 1] := by with_unfolding_all decide
  refine ⟨h, fun hall => ?_⟩
  obtain ⟨r, hr, -⟩ := hall none (by rw [h]; simp)
  exact Option.noConfusion hr

/-- Witness for C10 at a concrete input, with the memory hypothesis discharged. -/
theorem surprise_fixed_seed_deterministic_and_gains_nonneg_witness :
    surpriseStore (fun _ n => List.range n) 7 (some 0) SurprisePrior.dist 1 2 2 [1, 2, 3] =
      surpriseStore (fun _ n => List.range n) 99 (some 0) SurprisePrior.dist 1 2 2 [1, 2, 3] ∧
    (∀ p ∈ surpriseStore (fun _ n => List.range n) 7 (some 0) SurprisePrior.dist 1 2 2 [1, 2, 3],
      ∃ q, p = some q ∧ 0 < q ∧ q ≤ 1) ∧
    (∀ g ∈ (surpriseStore (fun _ n => List.range n) 7 (some 0) SurprisePrior.dist 1 2 2
        [1, 2, 3]).map (Option.map (fun q : ℚ => -Real.log (q : ℝ))),
      ∃ r, g = some r ∧ 0 ≤ r) :=
  ⟨(surprise_fixed_seed_deterministic_and_gains_nonneg (fun _ n => List.range n) 7 99 0
      SurprisePrior.dist 1 2 2 [1, 2, 3]).1,
   (surprise_fixed_seed_deterministic_and_gains_nonneg (fun _ n => List.range n) 7 99 0
      SurprisePrior.dist 1 2 2 [1, 2, 3]).2 (by decide)⟩

/-! ## Binarizer (external collaborator) and Motif Enumerators
(Symbolic.py, lines 138-398) -/

/-- Binarization methods of the external collaborator. -/
inductive BinMethod
  | diff
  | mean
  | median

/-- Modelled from the spec: the external `binarize(series, method)` collaborator
(`pyhctsa/Utilities/utils.py` is not among the sources; spec §6): `diff` encodes
increases of the series as 1, non-increases as 0 (length N-1); `mean` / `median`
encode values above the mean / median as 1 (length N). -/
def binarize (how : BinMethod) (y : List ℚ) : List ℕ :=
  match how with
  | .diff => (y.zip y.tail).map (fun ab => if ab.2 - ab.1 > 0 then 1 else 0)
  | .mean => y.map (fun x => if x > y.sum / (y.length : ℚ) then 1 else 0)
  | .median => y.map (fun x => if x > hazenQuantile y (1/2) then 1 else 0)

lemma binarize_mem {how : BinMethod} {y : List ℚ} : ∀ v ∈ binarize how y, v = 0 ∨ v = 1 := by
  intro v hv
  cases how with
  | diff =>
    rw [binarize] at hv
    obtain ⟨ab, _, rfl⟩ := List.mem_map.1 hv
    by_cases h : ab.2 - ab.1 > 0
    · right; rw [if_pos h]
    · left; rw [if_neg h]
  | mean =>
    rw [binarize] at hv
    obtain ⟨x, _, rfl⟩ := List.mem_map.1 hv
    by_cases h : x > y.sum / (y.length : ℚ)
    · right; rw [if_pos h]
    · left; rw [if_neg h]
  | median =>
    rw [binarize] at hv
    obtain ⟨x, _, rfl⟩ := List.mem_map.1 hv
    by_cases h : x > hazenQuantile y (1/2)
    · right; rw [if_pos h]
    · left; rw [if_neg h]

/-- Two-symbol word frequency of `MotifTwo`: e.g. `out['dd'] = np.mean(r00)`,
a count over the N-1 adjacent positions divided by N-1. -/
def mt2Pair (yBin : List ℕ) (b0 b1 : ℕ) : ℚ :=
  ((yBin.zip yBin.tail).countP (fun ab => decide (ab.1 = b0 ∧ ab.2 = b1)) : ℚ) /
    ((yBin.length : ℚ) - 1)

/-- Three-symbol word frequency of `MotifTwo` (mean over N-2 positions). -/
def mt2Triple (yBin : List ℕ) (b0 b1 b2 : ℕ) : ℚ :=
  (((List.range (yBin.length - 2)).countP (fun t => decide (yBin.getD t 0 = b0 ∧
    yBin.getD (t+1) 0 = b1 ∧ yBin.getD (t+2) 0 = b2))) : ℚ) / ((yBin.length : ℚ) - 2)

/-- Four-symbol word frequency of `MotifTwo` (mean over N-3 positions). -/
def mt2Quad (yBin : List ℕ) (b0 b1 b2 b3 : ℕ) : ℚ :=
  (((List.range (yBin.length - 3)).countP (fun t => decide (yBin.getD t 0 = b0 ∧
    yBin.getD (t+1) 0 = b1 ∧ yBin.getD (t+2) 0 = b2 ∧ yBin.getD (t+3) 0 = b3))) : ℚ) /
    ((yBin.length : ℚ) - 3)

/-- The word probabilities recorded by `MotifTwo` (`u`, `d`, the four pair
probabilities, and the length-3/4 tables in the code's d-before-u order).  The
entropy outputs `h/hh/hhh/hhhh` are `-Σ x log x` of these recorded
probabilities (real-log functions of them) and are omitted from the record. -/
structure MT2Out where
  u : ℚ
  d : ℚ
  dd : ℚ
  du : ℚ
  ud : ℚ
  uu : ℚ
  len3 : List ℚ
  len4 : List ℚ
deriving DecidableEq

/-- `MotifTwo(y, binarizeHow)`: the `N < 5` guard returns the NaN sentinel
(modelled `none`) after a logger warning, without raising.  No operation in the
body can raise for N ≥ 5 (`np.mean` of a possibly-empty boolean mask yields NaN,
not an error). -/
def motifTwo (how : BinMethod) (y : List ℚ) : Option MT2Out :=
  if (binarize how y).length < 5 then none
  else some
    { u := ((binarize how y).count 1 : ℚ) / ((binarize how y).length : ℚ)
      d := ((binarize how y).count 0 : ℚ) / ((binarize how y).length : ℚ)
      dd := mt2Pair (binarize how y) 0 0
      du := mt2Pair (binarize how y) 0 1
      ud := mt2Pair (binarize how y) 1 0
      uu := mt2Pair (binarize how y) 1 1
      len3 := (List.range 8).map (fun c =>
        mt2Triple (binarize how y) (c / 4) (c / 2 % 2) (c % 2))
      len4 := (List.range 16).map (fun c =>
        mt2Quad (binarize how y) (c / 8) (c / 4 % 2) (c / 2 % 2) (c % 2)) }

lemma count01 : ∀ (l : List ℕ), (∀ v ∈ l, v = 0 ∨ v = 1) →
    l.count 0 + l.count 1 = l.length := by
  intro l
  induction l with
  | nil => intro _; rfl
  | cons v t ih =>
    intro h
    have hv := h v (List.mem_cons_self _ _)
    have ht := ih (fun x hx => h x (List.mem_cons_of_mem _ hx))
    rw [List.count_cons, List.count_cons, List.length_cons]
    rcases hv with rfl | rfl <;> simp <;> omega

lemma countPairs01 : ∀ (l : List (ℕ × ℕ)),
    (∀ ab ∈ l, (ab.1 = 0 ∨ ab.1 = 1) ∧ (ab.2 = 0 ∨ ab.2 = 1)) →
    l.countP (fun ab => decide (ab.1 = 0 ∧ ab.2 = 0)) +
    l.countP (fun ab => decide (ab.1 = 0 ∧ ab.2 = 1)) +
    l.countP (fun ab => decide (ab.1 = 1 ∧ ab.2 = 0)) +
    l.countP (fun ab => decide (ab.1 = 1 ∧ ab.2 = 1)) = l.length := by
  intro l
  induction l with
  | nil => intro _; rfl
  | cons ab t ih =>
    intro h
    have hab := h ab (List.mem_cons_self _ _)
    have ht := ih (fun x hx => h x (List.mem_cons_of_mem _ hx))
    simp only [List.countP_cons, List.length_cons]
    rcases hab.1 with h1 | h1 <;> rcases hab.2 with h2 | h2 <;>
      (simp [h1, h2] at ht ⊢; omega)

/-- C5 (amended: the binarized sequence must itself have length ≥ 5; under the
default `'diff'` binarization this means input length ≥ 6): `MotifTwo` then
returns a mapping with `u + d = 1` and `dd + du + ud + uu = 1`. -/
theorem motifTwo_prob_sums (how : BinMethod) (y : List ℚ)
    (h5 : 5 ≤ (binarize how y).length) :
    ∃ out, motifTwo how y = some out ∧ out.u + out.d = 1 ∧
      out.dd + out.du + out.ud + out.uu = 1 := by
  rw [motifTwo, if_neg (by omega)]
  refine ⟨_, rfl, ?_, ?_⟩
  · show ((binarize how y).count 1 : ℚ) / ((binarize how y).length : ℚ) +
      ((binarize how y).count 0 : ℚ) / ((binarize how y).length : ℚ) = 1
    rw [div_add_div_same]
    have hc := count01 (binarize how y) binarize_mem
    have hlen0 : (0 : ℚ) < ((binarize how y).length : ℚ) := by
      exact_mod_cast Nat.lt_of_lt_of_le (by omega) h5
    rw [show ((binarize how y).count 1 : ℚ) + ((binarize how y).count 0 : ℚ) =
        (((binarize how y).count 0 + (binarize how y).count 1 : ℕ) : ℚ) by push_cast; ring,
      hc]
    exact div_self hlen0.ne'
  · show mt2Pair (binarize how y) 0 0 + mt2Pair (binarize how y) 0 1 +
      mt2Pair (binarize how y) 1 0 + mt2Pair (binarize how y) 1 1 = 1
    simp only [mt2Pair]
    rw [div_add_div_same, div_add_div_same, div_add_div_same]
    have hpr : ∀ ab ∈ (binarize how y).zip (binarize how y).tail,
        (ab.1 = 0 ∨ ab.1 = 1) ∧ (ab.2 = 0 ∨ ab.2 = 1) := by
      intro ab hab
      obtain ⟨h1, h2⟩ := List.of_mem_zip hab
      exact ⟨binarize_mem _ h1, binarize_mem _ (List.mem_of_mem_tail h2)⟩
    have hc := countPairs01 _ hpr
    have hlen1 : (1 : ℚ) ≤ ((binarize how y).length : ℚ) - 1 := by
      have : (5 : ℚ) ≤ ((binarize how y).length : ℚ) := by exact_mod_cast h5
      linarith
    rw [show (((binarize how y).zip (binarize how y).tail).countP
          (fun ab => decide (ab.1 = 0 ∧ ab.2 = 0)) : ℚ) +
        (((binarize how y).zip (binarize how y).tail).countP
          (fun ab => decide (ab.1 = 0 ∧ ab.2 = 1)) : ℚ) +
        (((binarize how y).zip (binarize how y).tail).countP
          (fun ab => decide (ab.1 = 1 ∧ ab.2 = 0)) : ℚ) +
        (((binarize how y).zip (binarize how y).tail).countP
          (fun ab => decide (ab.1 = 1 ∧ ab.2 = 1)) : ℚ) =
        ((((binarize how y).zip (binarize how y).tail).countP
            (fun ab => decide (ab.1 = 0 ∧ ab.2 = 0)) +
          ((binarize how y).zip (binarize how y).tail).countP
            (fun ab => decide (ab.1 = 0 ∧ ab.2 = 1)) +
          ((binarize how y).zip (binarize how y).tail).countP
            (fun ab => decide (ab.1 = 1 ∧ ab.2 = 0)) +
          ((binarize how y).zip (binarize how y).tail).countP
            (fun ab => decide (ab.1 = 1 ∧ ab.2 = 1)) : ℕ) : ℚ) by push_cast; ring,
      hc, zip_tail_length, Nat.cast_sub (by omega)]
    rw [Nat.cast_one]
    exact div_self (by linarith)

/-- C5 counterexample: a length-5 input under the default `'diff'` binarization
yields a length-4 binarized sequence, so `MotifTwo` returns the NaN sentinel
(`none`), not a mapping with `u + d = 1`. -/
theorem motifTwo_length_five_diff_counterexample :
    motifTwo BinMethod.diff [0, 1, 2, 3, 4] = none := by
  with_unfolding_all decide

/-- Witness for the amended C5 at a concrete input. -/
theorem motifTwo_prob_sums_witness :
    ∃ out, motifTwo BinMethod.diff [0, 1, 0, 2, 0, 3] = some out ∧
      out.u + out.d = 1 ∧ out.dd + out.du + out.ud + out.uu = 1 :=
  motifTwo_prob_sums BinMethod.diff [0, 1, 0, 2, 0, 3] (by with_unfolding_all decide)

/-- The trimming step of `MotifThree`'s recursive refinement:
`r[:-1] if len(r) > 0 and r[-1] == bound else r`. -/
def trimEdge (bound : ℕ) (r : List ℕ) : List ℕ :=
  if r.getLast? = some bound then r.dropLast else r

/-- `MotifThree` stage 1: `r1[i] = np.where(yt == i+1)[0]`. -/
def mt3r1 (yt : List ℕ) (i : ℕ) : List ℕ :=
  (List.range yt.length).filter (fun p => decide (yt.getD p 0 = i + 1))

/-- `MotifThree` stage 2: refine trimmed `r1` by the next symbol. -/
def mt3r2 (yt : List ℕ) (i j : ℕ) : List ℕ :=
  (trimEdge (yt.length - 1) (mt3r1 yt i)).filter (fun p => decide (yt.getD (p+1) 0 = j + 1))

/-- `MotifThree` stage 3. -/
def mt3r3 (yt : List ℕ) (i j k : ℕ) : List ℕ :=
  (trimEdge (yt.length - 2) (mt3r2 yt i j)).filter (fun p => decide (yt.getD (p+2) 0 = k + 1))

/-- `MotifThree` stage 4. -/
def mt3r4 (yt : List ℕ) (i j k l : ℕ) : List ℕ :=
  (trimEdge (yt.length - 3) (mt3r3 yt i j k)).filter (fun p => decide (yt.getD (p+3) 0 = l + 1))

/-- Python's `len(...) / denominator` with plain integers: `ZeroDivisionError`
when the denominator is 0 (the denominators `N-1`, `N-2`, `N-3` are Python ints,
negative for very short series — only a 0 denominator raises). -/
def divCheck (num : ℕ) (den : ℤ) : Except Unit ℚ :=
  if den = 0 then Except.error () else Except.ok ((num : ℚ) / (den : ℚ))

/-- `MotifThree(y, 'quantile')`: coarse-grain to 3 symbols (its `ValueError`s
modelled as errors), then the 3 + 9 + 27 + 81 word probabilities of lengths
1-4, each stage dividing by `N`, `N-1`, `N-2`, `N-3` respectively — the code
has NO short-series guard, so the stage-4 division raises `ZeroDivisionError`
when `N = 3` (and stage 2/3 for `N = 1`/`2`).  The four `_f_entropy` outputs are
real-log functions of the recorded probabilities and are omitted. -/
def motifThree (y : List ℚ) : Except Unit (List ℚ) := do
  let yt ← match coarseGrainQuantileChecked y 3 with
    | none => Except.error ()
    | some yt => Except.ok yt
  let out1 ← (List.range 3).mapM (fun i => divCheck (mt3r1 yt i).length (yt.length : ℤ))
  let out2 ← (List.range 9).mapM (fun c =>
    divCheck (mt3r2 yt (c / 3) (c % 3)).length ((yt.length : ℤ) - 1))
  let out3 ← (List.range 27).mapM (fun c =>
    divCheck (mt3r3 yt (c / 9) (c / 3 % 3) (c % 3)).length ((yt.length : ℤ) - 2))
  let out4 ← (List.range 81).mapM (fun c =>
    divCheck (mt3r4 yt (c / 27) (c / 9 % 3) (c / 3 % 3) (c % 3)).length ((yt.length : ℤ) - 3))
  return out1 ++ out2 ++ out3 ++ out4

/-- C6 (amended): `MotifTwo` indeed returns the NaN sentinel rather than raising
whenever the binarized sequence is too short (and a full mapping otherwise) —
but `MotifThree` has no such guard: on a short series it raises
`ZeroDivisionError` (see the counterexample) instead of returning a sentinel. -/
theorem motifTwo_short_series_sentinel (how : BinMethod) (y : List ℚ) :
    (motifTwo how y = none ↔ (binarize how y).length < 5) ∧
    ((binarize how y).length ≥ 5 → ∃ out, motifTwo how y = some out) := by
  constructor
  · constructor
    · intro h
      by_contra hlen
      rw [motifTwo, if_neg hlen] at h
      exact Option.noConfusion h
    · intro hlen
      rw [motifTwo, if_pos hlen]
  · intro hlen
    rw [motifTwo, if_neg (by omega)]
    exact ⟨_, rfl⟩

/-- C6 counterexample: `MotifThree([1,2,3])` coarse-grains to the length-3
symbol sequence [1,2,3] and then raises `ZeroDivisionError` at the length-4
stage (`len(...)/(N-3)` with `N-3 = 0`), rather than returning a sentinel. -/
instance : DecidableEq (Except Unit (List ℚ)) := fun a b =>
  match a, b with
  | Except.error x, Except.error z => if h : x = z then isTrue (by rw [h]) else
      isFalse (fun hc => h (by injection hc))
  | Except.ok u, Except.ok v => if h : u = v then isTrue (by rw [h]) else
      isFalse (fun hc => h (by injection hc))
  | Except.error _, Except.ok _ => isFalse (fun hc => Except.noConfusion hc)
  | Except.ok _, Except.error _ => isFalse (fun hc => Except.noConfusion hc)

theorem motifThree_short_series_raises :
    motifThree [1, 2, 3] = Except.error () := by
  with_unfolding_all decide

/-! ## Binary-Run Analyzer: `BinaryStats` (Symbolic.py, lines 458-539)

Output values are modelled by `BSVal`: exact rationals, the NaN/inf sentinels,
and symbolic square roots (`np.std` values; `sqrtv v` denotes the real `√v`,
`sqrtdiff a b` denotes `√a - √b`), keeping every entry computable.
-/

/-- Value domain of the `BinaryStats` result mapping. -/
inductive BSVal
  | num (q : ℚ)
  | nan
  | inf
  | sqrtv (q : ℚ)
  | sqrtdiff (a b : ℚ)
deriving DecidableEq

/-- Division of a result value by the positive series length (used for the
`*norm` and `*diff` statistics); `√v / c = √(v/c²)` for `c > 0`. -/
def bsDivN (v : BSVal) (c : ℚ) : BSVal :=
  match v with
  | .num q => .num (q / c)
  | .nan => .nan
  | .inf => .inf
  | .sqrtv q => .sqrtv (q / c^2)
  | .sqrtdiff a b => .sqrtdiff (a / c^2) (b / c^2)

/-- Subtraction of result values, used only for `stdstretchdiff = stdstretch1 -
stdstretch0` whose operands are each `nan` or a `sqrtv`; the remaining
constructor combinations are unreachable there and map to `nan`. -/
def bsSub (v w : BSVal) : BSVal :=
  match v, w with
  | .num a, .num b => .num (a - b)
  | .sqrtv a, .sqrtv b => .sqrtdiff a b
  | _, _ => .nan

/-- `np.mean` of a rational list (NaN for the empty list is handled by the
callers' length guards). -/
def listMeanQ (l : List ℚ) : ℚ := l.sum / (l.length : ℚ)

/-- `np.max` of a run-length list; only applied to nonempty lists of positive
run lengths, so the 0 base is never the maximum. -/
def listMaxQ (l : List ℚ) : ℚ := l.foldr max 0

/-- Sample variance (`ddof=1`), the square of `np.std(x, ddof=1)`. -/
def sampleVar (l : List ℚ) : ℚ :=
  (l.map (fun x => (x - listMeanQ l)^2)).sum / ((l.length : ℚ) - 1)

/-- `np.std(x, ddof=1)` as a `BSVal`: NaN for fewer than two samples, else the
square root of the sample variance. -/
def sampleStdVal (l : List ℚ) : BSVal :=
  if l.length ≤ 1 then .nan else .sqrtv (sampleVar l)

/-- `np.where(boolean condition on a list)[0]`. -/
def positionsWhere (p : ℕ → Bool) (l : List ℕ) : List ℕ :=
  (List.range l.length).filter (fun i => p (l.getD i 0))

/-- `np.diff` of an (ascending) position list. -/
def adjacentDiffs (l : List ℕ) : List ℕ :=
  (l.zip l.tail).map (fun ab => ab.2 - ab.1)

/-- Runs of consecutive 0s:
`diff_y = np.diff(np.where(np.concatenate(([1], yBin, [1])))[0]);`
`stretch0 = diff_y[diff_y != 1] - 1`. -/
def stretch0 (yBin : List ℕ) : List ℕ :=
  ((adjacentDiffs (positionsWhere (fun v => decide (v ≠ 0)) ([1] ++ yBin ++ [1]))).filter
    (fun d => decide (d ≠ 1))).map (fun d => d - 1)

/-- Runs of consecutive 1s (positions of 0 in `[0] ++ yBin ++ [0]`). -/
def stretch1 (yBin : List ℕ) : List ℕ :=
  ((adjacentDiffs (positionsWhere (fun v => decide (v = 0)) ([0] ++ yBin ++ [0]))).filter
    (fun d => decide (d ≠ 1))).map (fun d => d - 1)

/-- `out['pupstat2'] = np.sum(yBin[N//2:] == 1) / np.sum(yBin[:N//2] == 1)`:
numpy integer 0/0 gives NaN, positive/0 gives inf (warnings, no exception). -/
def pupstat2 (yBin : List ℕ) : BSVal :=
  if (yBin.take (yBin.length / 2)).count 1 = 0 then
    (if (yBin.drop (yBin.length / 2)).count 1 = 0 then .nan else .inf)
  else .num (((yBin.drop (yBin.length / 2)).count 1 : ℚ) /
    ((yBin.take (yBin.length / 2)).count 1 : ℚ))

/-- Mean run length as recorded in the dict (0 for an empty run list). -/
def bsMeanStretch (s : List ℕ) : ℚ :=
  if s.length = 0 then 0 else listMeanQ (s.map (fun n => (n : ℚ)))

/-- Std of run lengths as recorded in the dict (NaN for an empty run list). -/
def bsStd (s : List ℕ) : BSVal :=
  if s.length = 0 then .nan else sampleStdVal (s.map (fun n => (n : ℚ)))

/-- `np.mean(stretch == 2) - np.mean(stretch == 1)` (NaN on the empty list). -/
def diff21 (s : List ℕ) : BSVal :=
  if s.length = 0 then .nan
  else .num ((s.count 2 : ℚ)/(s.length : ℚ) - (s.count 1 : ℚ)/(s.length : ℚ))

/-- The ordered key-value mapping `BinaryStats(y, binaryMethod)` builds when it
does not raise.  Note the asymmetry in the code: the empty-`stretch1` branch
(lines 519-524) omits `stdstretch1norm`, unlike the empty-`stretch0` branch;
and no `pstretch0` key is ever produced. -/
def binaryStatsRows (how : BinMethod) (y : List ℚ) : List (String × BSVal) :=
  [("pupstat2", pupstat2 (binarize how y)),
   ("pstretch1", BSVal.num ((stretch1 (binarize how y)).length /
     ((binarize how y).length : ℚ)))]
  ++ (if (stretch0 (binarize how y)).length = 0 then
      [("longstretch0", BSVal.num 0), ("longstretch0norm", BSVal.num 0),
       ("meanstretch0", BSVal.num 0), ("meanstretch0norm", BSVal.num 0),
       ("stdstretch0", BSVal.nan), ("stdstretch0norm", BSVal.nan)]
    else
      [("longstretch0", BSVal.num (listMaxQ ((stretch0 (binarize how y)).map
         (fun n => (n : ℚ))))),
       ("longstretch0norm", BSVal.num (listMaxQ ((stretch0 (binarize how y)).map
         (fun n => (n : ℚ))) / ((binarize how y).length : ℚ))),
       ("meanstretch0", BSVal.num (listMeanQ ((stretch0 (binarize how y)).map
         (fun n => (n : ℚ))))),
       ("meanstretch0norm", BSVal.num (listMeanQ ((stretch0 (binarize how y)).map
         (fun n => (n : ℚ))) / ((binarize how y).length : ℚ))),
       ("stdstretch0", sampleStdVal ((stretch0 (binarize how y)).map (fun n => (n : ℚ)))),
       ("stdstretch0norm", bsDivN (sampleStdVal ((stretch0 (binarize how y)).map
         (fun n => (n : ℚ)))) ((binarize how y).length : ℚ))])
  ++ (if (stretch1 (binarize how y)).length = 0 then
      [("longstretch1", BSVal.num 0), ("longstretch1norm", BSVal.num 0),
       ("meanstretch1", BSVal.num 0), ("meanstretch1norm", BSVal.num 0),
       ("stdstretch1", BSVal.nan)]
    else
      [("longstretch1", BSVal.num (listMaxQ ((stretch1 (binarize how y)).map
         (fun n => (n : ℚ))))),
       ("longstretch1norm", BSVal.num (listMaxQ ((stretch1 (binarize how y)).map
         (fun n => (n : ℚ))) / ((binarize how y).length : ℚ))),
       ("meanstretch1", BSVal.num (listMeanQ ((stretch1 (binarize how y)).map
         (fun n => (n : ℚ))))),
       ("meanstretch1norm", BSVal.num (listMeanQ ((stretch1 (binarize how y)).map
         (fun n => (n : ℚ))) / ((binarize how y).length : ℚ))),
       ("stdstretch1", sampleStdVal ((stretch1 (binarize how y)).map (fun n => (n : ℚ)))),
       ("stdstretch1norm", bsDivN (sampleStdVal ((stretch1 (binarize how y)).map
         (fun n => (n : ℚ)))) ((binarize how y).length : ℚ))])
  ++ [("meanstretchdiff", BSVal.num ((bsMeanStretch (stretch1 (binarize how y)) -
        bsMeanStretch (stretch0 (binarize how y))) / ((binarize how y).length : ℚ))),
      ("stdstretchdiff", bsDivN (bsSub (bsStd (stretch1 (binarize how y)))
        (bsStd (stretch0 (binarize how y)))) ((binarize how y).length : ℚ)),
      ("diff21stretch1", diff21 (stretch1 (binarize how y))),
      ("diff21stretch0", diff21 (stretch0 (binarize how y)))]

instance : DecidableEq (Except Unit (List (String × BSVal))) := fun a b =>
  match a, b with
  | Except.error x, Except.error z => if h : x = z then isTrue (by rw [h]) else
      isFalse (fun hc => h (by injection hc))
  | Except.ok u, Except.ok v => if h : u = v then isTrue (by rw [h]) else
      isFalse (fun hc => h (by injection hc))
  | Except.error _, Except.ok _ => isFalse (fun hc => Except.noConfusion hc)
  | Except.ok _, Except.error _ => isFalse (fun hc => Except.noConfusion hc)

/-- `BinaryStats(y, binaryMethod)` as a whole call.  The only Python-level
division is `out['pstretch1'] = len(stretch1) / N` (Symbolic.py line 502): when
the binarization is empty (e.g. a series of length ≤ 1 under `'diff'`) it
raises `ZeroDivisionError`.  Everything before it (`pupstat2`, the stretch
arrays) and every later division is numpy (`0/0 = NaN`, `pos/0 = inf`,
warnings but no exception), so the call raises exactly when `N = 0`. -/
def binaryStats (how : BinMethod) (y : List ℚ) :
    Except Unit (List (String × BSVal)) :=
  if (binarize how y).length = 0 then Except.error ()
  else Except.ok (binaryStatsRows how y)

lemma adjacentDiffs_range (m : ℕ) : ∀ d ∈ adjacentDiffs (List.range m), d = 1 := by
  intro d hd
  rw [adjacentDiffs] at hd
  obtain ⟨ab, hab, rfl⟩ := List.mem_map.1 hd
  obtain ⟨i, hi, hab_eq⟩ := List.mem_iff_getElem.1 hab
  rw [List.getElem_zip] at hab_eq
  have hiz : i < (List.range m).tail.length := by
    have := hi
    rw [List.length_zip] at this
    omega
  have h1 : ab.1 = i := by
    rw [← hab_eq]
    simp [List.getElem_range]
  have h2 : ab.2 = i + 1 := by
    rw [← hab_eq]
    simp [List.getElem_tail, List.getElem_range]
    omega
  omega

lemma positionsWhere_all {p : ℕ → Bool} {l : List ℕ} (h : ∀ i, i < l.length →
    p (l.getD i 0) = true) : positionsWhere p l = List.range l.length := by
  rw [positionsWhere]
  exact List.filter_eq_self.2 (fun i hi => h i (List.mem_range.1 hi))

lemma filtered_diffs_range_nil (m : ℕ) :
    ((adjacentDiffs (List.range m)).filter (fun d => decide (d ≠ 1))).map (fun d => d - 1) =
      [] := by
  rw [List.filter_eq_nil_iff.2 ?_, List.map_nil]
  intro d hd
  simp only [decide_eq_true_eq, Decidable.not_not, ne_eq, not_not]
  exact adjacentDiffs_range m d hd

lemma stretch0_of_all_one {yBin : List ℕ} (h1 : ∀ v ∈ yBin, v = 1) :
    stretch0 yBin = [] := by
  rw [stretch0, positionsWhere_all ?_, filtered_diffs_range_nil]
  intro i hi
  simp only [decide_eq_true_eq, ne_eq]
  have hmem : ([1] ++ yBin ++ [1]).getD i 0 ∈ [1] ++ yBin ++ [1] := by
    rw [List.getD_eq_getElem _ _ hi]
    exact List.getElem_mem hi
  intro h0
  rw [h0] at hmem
  simp only [List.mem_append, List.mem_singleton] at hmem
  rcases hmem with (h | h) | h
  · simp at h
  · exact absurd (h1 0 h) (by omega)
  · exact absurd h (by omega)

lemma stretch1_of_all_zero {yBin : List ℕ} (h0 : ∀ v ∈ yBin, v = 0) :
    stretch1 yBin = [] := by
  rw [stretch1, positionsWhere_all ?_, filtered_diffs_range_nil]
  intro i hi
  simp only [decide_eq_true_eq]
  have hmem : ([0] ++ yBin ++ [0]).getD i 0 ∈ [0] ++ yBin ++ [0] := by
    rw [List.getD_eq_getElem _ _ hi]
    exact List.getElem_mem hi
  simp only [List.mem_append, List.mem_singleton] at hmem
  rcases hmem with (h | h) | h
  · simpa using h
  · exact h0 _ h
  · exact h

/-- C9 (amended): when the binarization is empty, `BinaryStats` raises
(`ZeroDivisionError` at `len(stretch1)/N`) and no dict is returned at all.
Otherwise the call returns the full row list, and when one binary symbol never
occurs the recorded run statistics for that symbol (`longstretchX`,
`longstretchXnorm`, `meanstretchX`, `meanstretchXnorm`) are present and zero
and `stdstretchX` is NaN — but `diff21stretchX` is NaN rather than zero,
`stdstretch1norm` is ABSENT when symbol 1 never occurs (the empty-`stretch1`
branch omits it, unlike the empty-`stretch0` branch which sets
`stdstretch0norm` to NaN), and no `pstretch0` key ever exists. -/
theorem binaryStats_missing_symbol (how : BinMethod) (y : List ℚ) :
    (binarize how y = [] → binaryStats how y = Except.error ()) ∧
    (binarize how y ≠ [] →
      binaryStats how y = Except.ok (binaryStatsRows how y)) ∧
    ((∀ v ∈ binarize how y, v = 1) →
      ((binaryStatsRows how y).lookup "longstretch0" = some (BSVal.num 0) ∧
       (binaryStatsRows how y).lookup "longstretch0norm" = some (BSVal.num 0) ∧
       (binaryStatsRows how y).lookup "meanstretch0" = some (BSVal.num 0) ∧
       (binaryStatsRows how y).lookup "meanstretch0norm" = some (BSVal.num 0) ∧
       (binaryStatsRows how y).lookup "stdstretch0" = some BSVal.nan ∧
       (binaryStatsRows how y).lookup "stdstretch0norm" = some BSVal.nan ∧
       (binaryStatsRows how y).lookup "diff21stretch0" = some BSVal.nan)) ∧
    ((∀ v ∈ binarize how y, v = 0) →
      ((binaryStatsRows how y).lookup "longstretch1" = some (BSVal.num 0) ∧
       (binaryStatsRows how y).lookup "longstretch1norm" = some (BSVal.num 0) ∧
       (binaryStatsRows how y).lookup "meanstretch1" = some (BSVal.num 0) ∧
       (binaryStatsRows how y).lookup "meanstretch1norm" = some (BSVal.num 0) ∧
       (binaryStatsRows how y).lookup "stdstretch1" = some BSVal.nan ∧
       "stdstretch1norm" ∉ (binaryStatsRows how y).map Prod.fst ∧
       (binaryStatsRows how y).lookup "diff21stretch1" = some BSVal.nan)) ∧
    "pstretch0" ∉ (binaryStatsRows how y).map Prod.fst := by
  refine ⟨?_, ?_, ?_, ?_, ?_⟩
  · intro h
    rw [binaryStats, h]
    rfl
  · intro h
    rw [binaryStats, if_neg (by simpa [List.length_eq_zero] using h)]
  · intro h1
    have hs0 : stretch0 (binarize how y) = [] := stretch0_of_all_one h1
    rw [binaryStatsRows, hs0]
    by_cases hs1 : (stretch1 (binarize how y)).length = 0
    · simp only [List.length_nil, if_pos, hs1]
      simp [List.lookup, diff21]
    · simp only [List.length_nil, if_pos, if_neg hs1]
      simp [List.lookup, diff21]
  · intro h0
    have hs1 : stretch1 (binarize how y) = [] := stretch1_of_all_zero h0
    rw [binaryStatsRows, hs1]
    by_cases hs0 : (stretch0 (binarize how y)).length = 0
    · simp only [List.length_nil, if_pos, hs0]
      simp [List.lookup, diff21]
    · simp only [List.length_nil, if_pos, if_neg hs0]
      simp [List.lookup, diff21]
  · rw [binaryStatsRows]
    by_cases hs0 : (stretch0 (binarize how y)).length = 0 <;>
      by_cases hs1 : (stretch1 (binarize how y)).length = 0 <;>
      simp [hs0, hs1, List.lookup]

/-- C9 counterexample: for the decreasing series [3,2,1] under the default
`'diff'` binarization (all-zero binarized sequence, symbol 1 never occurs),
the call returns normally but `stdstretch1norm` is missing from the result —
so not every run statistic of the absent symbol is present.  And on the
length-1 series [5], whose `'diff'` binarization is empty, the call raises
(`ZeroDivisionError` at `len(stretch1)/N` with `N = 0`) and returns nothing. -/
theorem binaryStats_missing_key_counterexample :
    (∀ v ∈ binarize BinMethod.diff [3, 2, 1], v = 0) ∧
    binaryStats BinMethod.diff [3, 2, 1] =
      Except.ok (binaryStatsRows BinMethod.diff [3, 2, 1]) ∧
    "stdstretch1norm" ∉ (binaryStatsRows BinMethod.diff [3, 2, 1]).map Prod.fst ∧
    "stdstretch0norm" ∈ (binaryStatsRows BinMethod.diff [3, 2, 1]).map Prod.fst ∧
    binaryStats BinMethod.diff [5] = Except.error () := by
  with_unfolding_all decide

/-- Witness for the amended C9: the raising case, the returning case, and both
missing-symbol scenarios. -/
theorem binaryStats_missing_symbol_witness :
    binaryStats BinMethod.diff [5] = Except.error () ∧
    binaryStats BinMethod.diff [1, 2, 3] =
      Except.ok (binaryStatsRows BinMethod.diff [1, 2, 3]) ∧
    ((binaryStatsRows BinMethod.diff [1, 2, 3]).lookup "longstretch0" =
        some (BSVal.num 0) ∧
     (binaryStatsRows BinMethod.diff [1, 2, 3]).lookup "longstretch0norm" =
        some (BSVal.num 0) ∧
     (binaryStatsRows BinMethod.diff [1, 2, 3]).lookup "meanstretch0" =
        some (BSVal.num 0) ∧
     (binaryStatsRows BinMethod.diff [1, 2, 3]).lookup "meanstretch0norm" =
        some (BSVal.num 0) ∧
     (binaryStatsRows BinMethod.diff [1, 2, 3]).lookup "stdstretch0" = some BSVal.nan ∧
     (binaryStatsRows BinMethod.diff [1, 2, 3]).lookup "stdstretch0norm" =
        some BSVal.nan ∧
     (binaryStatsRows BinMethod.diff [1, 2, 3]).lookup "diff21stretch0" =
        some BSVal.nan) ∧
    ((binaryStatsRows BinMethod.diff [3, 2, 1]).lookup "longstretch1" =
        some (BSVal.num 0) ∧
     (binaryStatsRows BinMethod.diff [3, 2, 1]).lookup "longstretch1norm" =
        some (BSVal.num 0) ∧
     (binaryStatsRows BinMethod.diff [3, 2, 1]).lookup "meanstretch1" =
        some (BSVal.num 0) ∧
     (binaryStatsRows BinMethod.diff [3, 2, 1]).lookup "meanstretch1norm" =
        some (BSVal.num 0) ∧
     (binaryStatsRows BinMethod.diff [3, 2, 1]).lookup "stdstretch1" = some BSVal.nan ∧
     "stdstretch1norm" ∉ (binaryStatsRows BinMethod.diff [3, 2, 1]).map Prod.fst ∧
     (binaryStatsRows BinMethod.diff [3, 2, 1]).lookup "diff21stretch1" =
        some BSVal.nan) :=
  ⟨(binaryStats_missing_symbol BinMethod.diff [5]).1 (by with_unfolding_all decide),
   (binaryStats_missing_symbol BinMethod.diff [1, 2, 3]).2.1 (by with_unfolding_all decide),
   (binaryStats_missing_symbol BinMethod.diff [1, 2, 3]).2.2.1 (by with_unfolding_all decide),
   (binaryStats_missing_symbol BinMethod.diff [3, 2, 1]).2.2.2.1
     (by with_unfolding_all decide)⟩
